import Mathlib

/-!
Shallow embedding of src/ArgParser.js (Devoxin/Eris-ArgParser).

JS strings are modelled as List Char, the mutable args array as
List (List Char) threaded explicitly through each operation.  The three
mention regexes and the anchored id regex are modelled by explicit
scanning functions whose greedy bounded quantifier collapses to a
maximal-digit-run check.  The while loops of cleanContent receive
explicit fuel; the guild access that can fault on a guildless message is
modelled by a thrown outcome.  String.prototype.replace is modelled with
the ECMA-262 dollar substitution patterns that JS expands even for a
string search pattern (getSubstitution / jsReplace); the literal splicer
replaceFirst is its dollar-free specialization.
-/

set_option maxHeartbeats 1000000

namespace ErisArg

/-- JS truthiness filter for a string-valued expression: undefined (none)
and the empty string are falsy. -/
def truthy : Option (List Char) → Option (List Char)
  | some s => if s = [] then none else some s
  | none => none

/-- Array.prototype.join(" "). -/
def joinSpace (xs : List (List Char)) : List Char :=
  List.intercalate [' '] xs

/-- The shared consumption step:
consumeRest ? this.args.splice(0).join(" ") : this.args.shift().
Returns the consumed value (none models undefined) and the args array
afterwards. -/
def consume (consumeRest : Bool) (args : List (List Char)) :
    Option (List Char) × List (List Char) :=
  if consumeRest then (some (joinSpace args), []) else (args.head?, args.tail)

/-- The effective index of a JS slice/splice bound: negative values count
from the end, and both directions clamp to the array. -/
def jsBound (len : Nat) (x : Int) : Nat :=
  (if x < 0 then max ((len : Int) + x) 0 else min x (len : Int)).toNat

/-- JS Array/String slice(start, stop) with negative-index handling. -/
def jsSlice {α : Type} (l : List α) (start stop : Int) : List α :=
  (l.take (jsBound l.length stop)).drop (jsBound l.length start)

/-- JS Array.prototype.splice(start, 1), keeping the array that remains. -/
def jsSpliceRm {α : Type} (l : List α) (start : Int) : List α :=
  l.take (jsBound l.length start) ++ l.drop (jsBound l.length start + 1)

/-- The characters mention syntax is built from: < > @ # ! & and ASCII digits. -/
def Amem (c : Char) : Bool :=
  c = '<' || c = '>' || c = '@' || c = '#' || c = '!' || c = '&' || c.isDigit

/-- Matches ([0-9]{15,21})> at the front of s.  Greedy backtracking of the
bounded quantifier collapses to: the maximal digit run has length 15..21
and is immediately followed by the closing bracket.  Returns
(matched text, captured digits, rest). -/
def tryMentionCore (s : List Char) : Option (List Char × List Char × List Char) :=
  let d := s.takeWhile Char.isDigit
  if 15 ≤ d.length ∧ d.length ≤ 21 then
    match s.dropWhile Char.isDigit with
    | '>' :: r => some (d ++ ['>'], d, r)
    | _ => none
  else none

/-- userMentionMatcher matched at the front of s.  The optional ! is taken
when present; when absent the digit run must start right after the at
sign (a match needs at least three characters, so shorter strings fall
through to none, agreeing with the regex). -/
def tryUser (s : List Char) : Option (List Char × List Char × List Char) :=
  match s with
  | a :: b :: c :: t =>
    if a = '<' ∧ b = '@' then
      if c = '!' then
        (tryMentionCore t).map (fun x => ('<' :: '@' :: '!' :: x.1, x.2.1, x.2.2))
      else
        (tryMentionCore (c :: t)).map (fun x => ('<' :: '@' :: x.1, x.2.1, x.2.2))
    else none
  | _ => none

/-- channelMentionMatcher matched at the front of s. -/
def tryChan (s : List Char) : Option (List Char × List Char × List Char) :=
  match s with
  | a :: b :: t =>
    if a = '<' ∧ b = '#' then
      (tryMentionCore t).map (fun x => ('<' :: '#' :: x.1, x.2.1, x.2.2))
    else none
  | _ => none

/-- roleMentionMatcher matched at the front of s. -/
def tryRole (s : List Char) : Option (List Char × List Char × List Char) :=
  match s with
  | a :: b :: c :: t =>
    if a = '<' ∧ b = '@' ∧ c = '&' then
      (tryMentionCore t).map (fun x => ('<' :: '@' :: '&' :: x.1, x.2.1, x.2.2))
    else none
  | _ => none

/-- idMatcher, anchored at both ends: the whole string is one 15-21 digit run.
Returns the capture group. -/
def idExec (s : List Char) : Option (List Char) :=
  let d := s.takeWhile Char.isDigit
  if d.length = s.length ∧ 15 ≤ d.length ∧ d.length ≤ 21 then some d else none

/-- Unanchored RegExp.prototype.exec: try the front matcher at each position,
leftmost position first.  Returns
(text before the match, matched text, captured digits, text after). -/
def scanFind (tryf : List Char → Option (List Char × List Char × List Char)) :
    List Char → Option (List Char × List Char × List Char × List Char)
  | [] =>
    match tryf [] with
    | some x => some ([], x.1, x.2.1, x.2.2)
    | none => none
  | c :: t =>
    match tryf (c :: t) with
    | some x => some ([], x.1, x.2.1, x.2.2)
    | none => (scanFind tryf t).map (fun r => (c :: r.1, r.2.1, r.2.2.1, r.2.2.2))

/-- First occurrence of pat as a substring of s: returns the text before and
after that occurrence. -/
def splitFirst (pat : List Char) : List Char → Option (List Char × List Char)
  | [] => if pat.isPrefixOf [] then some ([], []) else none
  | c :: t =>
    if pat.isPrefixOf (c :: t) then some ([], (c :: t).drop pat.length)
    else (splitFirst pat t).map (fun r => (c :: r.1, r.2))

/-- First-occurrence replacement with the replacement text spliced in
literally.  jsReplace below is the faithful String.prototype.replace, which
additionally expands the ECMA-262 dollar substitution patterns; the two
coincide exactly when the replacement text contains no dollar sign
(jsReplace_no_dollar). -/
def replaceFirst (pat rep s : List Char) : List Char :=
  match splitFirst pat s with
  | some x => x.1 ++ rep ++ x.2
  | none => s

/-- U+0060, the backquote of the ECMA-262 substitution patterns. -/
def bq : Char := Char.ofNat 96

/-- U+0027, the quote of the ECMA-262 substitution patterns. -/
def qu : Char := Char.ofNat 39

/-- ECMA-262 GetSubstitution for a string search pattern (so with no capture
groups): a doubled dollar sign is one dollar sign, dollar-ampersand is the
matched text, dollar-backquote the text before the match, dollar-quote the
text after the match; anything else, including the dollar-digit forms for
the absent captures, stays literal. -/
def getSubstitution (matched pre suf : List Char) : List Char → List Char
  | [] => []
  | [c] => [c]
  | c :: d :: r2 =>
    if c = '$' then
      if d = '$' then '$' :: getSubstitution matched pre suf r2
      else if d = '&' then matched ++ getSubstitution matched pre suf r2
      else if d = bq then pre ++ getSubstitution matched pre suf r2
      else if d = qu then suf ++ getSubstitution matched pre suf r2
      else c :: getSubstitution matched pre suf (d :: r2)
    else c :: getSubstitution matched pre suf (d :: r2)

/-- JS String.prototype.replace with a string pattern: rewrite the first
occurrence of pat, expanding the dollar substitution patterns in the
replacement text against the matched occurrence. -/
def jsReplace (pat rep s : List Char) : List Char :=
  match splitFirst pat s with
  | some x => x.1 ++ getSubstitution pat x.1 x.2 rep ++ x.2
  | none => s

structure User where
  id : List Char
  username : List Char
  discriminator : List Char
deriving DecidableEq

structure Member where
  id : List Char
  nick : Option (List Char)
  username : List Char
deriving DecidableEq

structure Channel where
  id : List Char
  name : List Char
deriving DecidableEq

structure Role where
  id : List Char
  name : List Char
deriving DecidableEq

structure Guild where
  channels : List Channel
  roles : List Role
  members : List Member
deriving DecidableEq

/-- The ArgParser state: msg.channel.guild when the message is guild-bound,
the client user and channel collections, and the args array. -/
structure Cursor where
  guild : Option Guild
  botUsers : List User
  botChannels : List Channel
  args : List (List Char)
deriving DecidableEq

/-- idMatcher.exec(args) || mentionMatcher.exec(args), keeping the capture
group (the id digits). -/
def idOrMentionId (tryf : List Char → Option (List Char × List Char × List Char))
    (s : List Char) : Option (List Char) :=
  match idExec s with
  | some i => some i
  | none => (scanFind tryf s).map (fun r => r.2.2.1)

/-- resolveUser(consumeRest). -/
def resolveUser (st : Cursor) (consumeRest : Bool) :
    Option User × List (List Char) :=
  let c := consume consumeRest st.args
  match truthy c.1 with
  | none => (none, c.2)
  | some s =>
    match idOrMentionId tryUser s with
    | some i => (st.botUsers.find? (fun u => u.id = i), c.2)
    | none =>
      if 5 < s.length ∧ jsSlice s (-5) (-4) = ['#'] then
        (st.botUsers.find? (fun u => u.username ++ '#' :: u.discriminator = s), c.2)
      else
        (st.botUsers.find? (fun u => u.username = s), c.2)

/-- resolveChannel(consumeRest). -/
def resolveChannel (st : Cursor) (consumeRest : Bool) :
    Option Channel × List (List Char) :=
  let c := consume consumeRest st.args
  match truthy c.1 with
  | none => (none, c.2)
  | some s =>
    match idOrMentionId tryChan s with
    | some i => (st.botChannels.find? (fun ch => ch.id = i), c.2)
    | none =>
      match st.guild with
      | none => (none, c.2)
      | some g => (g.channels.find? (fun ch => ch.name = s), c.2)

/-- resolveRole(consumeRest): consumption happens first, then guild presence
and emptiness are checked together. -/
def resolveRole (st : Cursor) (consumeRest : Bool) :
    Option Role × List (List Char) :=
  let c := consume consumeRest st.args
  match st.guild, truthy c.1 with
  | some g, some s =>
    (match idOrMentionId tryRole s with
     | some i => (g.roles.find? (fun r => r.id = i), c.2)
     | none => (g.roles.find? (fun r => r.name = s), c.2))
  | _, _ => (none, c.2)

/-- nextArgument(consumeRest). -/
def nextArgument (st : Cursor) (consumeRest : Bool) :
    Option (List Char) × List (List Char) :=
  consume consumeRest st.args

/-- Outcome of a call that can throw (a property access on a missing guild)
or, with the bounded fuel standing in for the unbounded while loops, run out
of fuel. -/
inductive JsOut (α : Type) where
  | ok : α → JsOut α
  | thrown : JsOut α
  | fuelOut : JsOut α
deriving DecidableEq

/-- Display text for one cleaned user mention:
guild ? guild.members.get(id) : bot.users.get(id), then
user ? "@" + (user.nick || user.username) : "@deleted-user". -/
def userFmt (og : Option Guild) (users : List User) (i : List Char) : List Char :=
  match og with
  | some g =>
    match g.members.find? (fun m => m.id = i) with
    | some m =>
      '@' :: (match m.nick with
              | some n => if n = [] then m.username else n
              | none => m.username)
    | none => "@deleted-user".data
  | none =>
    match users.find? (fun u => u.id = i) with
    | some u => '@' :: u.username
    | none => "@deleted-user".data

/-- Display text for one cleaned channel mention. -/
def chanFmt (g : Guild) (i : List Char) : List Char :=
  match g.channels.find? (fun ch => ch.id = i) with
  | some ch => '#' :: ch.name
  | none => "#deleted-channel".data

/-- Display text for one cleaned role mention. -/
def roleFmt (g : Guild) (i : List Char) : List Char :=
  match g.roles.find? (fun r => r.id = i) with
  | some r => '@' :: r.name
  | none => "@deleted-role".data

/-- One cleanContent rewrite loop:
while ((match = matcher.exec(args)) !== null) args = args.replace(match[0], fmt).
none models running out of fuel, that is, a loop the source would still be
running. -/
def mentionLoop (tryf : List Char → Option (List Char × List Char × List Char))
    (fmt : List Char → List Char) : Nat → List Char → Option (List Char)
  | 0, _ => none
  | fuel + 1, s =>
    match scanFind tryf s with
    | none => some s
    | some x => mentionLoop tryf fmt fuel (jsReplace x.2.1 (fmt x.2.2.1) s)

/-- The channel-mention loop.  The body reads this.msg.channel.guild.channels,
which faults when the message has no guild; the loop body only runs when a
match was found. -/
def chanLoop (og : Option Guild) (fuel : Nat) (s : List Char) : JsOut (List Char) :=
  match og with
  | some g =>
    match mentionLoop tryChan (chanFmt g) fuel s with
    | some r => .ok r
    | none => .fuelOut
  | none =>
    match scanFind tryChan s with
    | none => .ok s
    | some _ => .thrown

/-- The role-mention loop, reading this.msg.channel.guild.roles. -/
def roleLoop (og : Option Guild) (fuel : Nat) (s : List Char) : JsOut (List Char) :=
  match og with
  | some g =>
    match mentionLoop tryRole (roleFmt g) fuel s with
    | some r => .ok r
    | none => .fuelOut
  | none =>
    match scanFind tryRole s with
    | none => .ok s
    | some _ => .thrown

/-- U+200B, the zero-width space inserted after the at sign. -/
def zws : Char := '\u200B'

/-- .replace("@everyone", ...).replace("@here", ...): one zero-width space
after the at sign of the first occurrence of each literal. -/
def broadcastClean (s : List Char) : List Char :=
  jsReplace "@here".data ('@' :: zws :: "here".data)
    (jsReplace "@everyone".data ('@' :: zws :: "everyone".data) s)

/-- The body of cleanContent after consumption: the three rewrite loops in
source order, then the everyone/here substitution. -/
def cleanCore (og : Option Guild) (users : List User) (fuel : Nat)
    (s : List Char) : JsOut (List Char) :=
  match mentionLoop tryUser (userFmt og users) fuel s with
  | none => .fuelOut
  | some s1 =>
    match chanLoop og fuel s1 with
    | .ok s2 =>
      match roleLoop og fuel s2 with
      | .ok s3 => .ok (broadcastClean s3)
      | .thrown => .thrown
      | .fuelOut => .fuelOut
    | .thrown => .thrown
    | .fuelOut => .fuelOut

/-- cleanContent(consumeRest): consume, return null on a falsy string,
otherwise run the rewrite pipeline. -/
def cleanContent (fuel : Nat) (st : Cursor) (consumeRest : Bool) :
    JsOut (Option (List Char)) × List (List Char) :=
  let c := consume consumeRest st.args
  match truthy c.1 with
  | none => (.ok none, c.2)
  | some s =>
    match cleanCore st.guild st.botUsers fuel s with
    | .ok r => (.ok (some r), c.2)
    | .thrown => (.thrown, c.2)
    | .fuelOut => (.fuelOut, c.2)

/-- get isEmpty: !this.args[0]. -/
def isEmpty (st : Cursor) : Bool :=
  (truthy st.args.head?).isNone

/-- get textLength: this.args.join(" ").length. -/
def textLength (st : Cursor) : Nat :=
  (joinSpace st.args).length

/-- getArgument(index): this.args.slice(index, 1).join(" "). -/
def getArgument (st : Cursor) (index : Int) : List Char :=
  joinSpace (jsSlice st.args index 1)

/-- gather(): this.args.join(" "). -/
def gather (st : Cursor) : List Char :=
  joinSpace st.args

/-- drop(index): this.args.splice(index, 1), in place. -/
def drop (st : Cursor) (index : Int) : Cursor :=
  { st with args := jsSpliceRm st.args index }

/-! ## Specification-side predicates -/

/-- A well-formed captured id: 15 to 21 ASCII digits. -/
def WfId (i : List Char) : Prop :=
  15 ≤ i.length ∧ i.length ≤ 21 ∧ ∀ c ∈ i, c.isDigit = true

/-- Well-formed user mention text with its captured id. -/
def WfUser (m i : List Char) : Prop :=
  WfId i ∧ (m = '<' :: '@' :: (i ++ ['>']) ∨ m = '<' :: '@' :: '!' :: (i ++ ['>']))

/-- Well-formed channel mention text with its captured id. -/
def WfChan (m i : List Char) : Prop :=
  WfId i ∧ m = '<' :: '#' :: (i ++ ['>'])

/-- Well-formed role mention text with its captured id. -/
def WfRole (m i : List Char) : Prop :=
  WfId i ∧ m = '<' :: '@' :: '&' :: (i ++ ['>'])

instance wfId_dec (i : List Char) : Decidable (WfId i) :=
  inferInstanceAs
    (Decidable (15 ≤ i.length ∧ i.length ≤ 21 ∧ ∀ c ∈ i, c.isDigit = true))

instance wfUser_dec (m i : List Char) : Decidable (WfUser m i) :=
  inferInstanceAs (Decidable (WfId i ∧
    (m = '<' :: '@' :: (i ++ ['>']) ∨ m = '<' :: '@' :: '!' :: (i ++ ['>']))))

instance wfChan_dec (m i : List Char) : Decidable (WfChan m i) :=
  inferInstanceAs (Decidable (WfId i ∧ m = '<' :: '#' :: (i ++ ['>'])))

instance wfRole_dec (m i : List Char) : Decidable (WfRole m i) :=
  inferInstanceAs (Decidable (WfId i ∧ m = '<' :: '@' :: '&' :: (i ++ ['>'])))

/-- Shape facts shared by every well-formed mention text: it opens with <,
closes with >, and uses only mention-alphabet characters. -/
def MProps (m : List Char) : Prop :=
  m.head? = some '<' ∧ m.getLast? = some '>' ∧ ∀ c ∈ m, Amem c = true

/-- A replacement string that can neither contain nor complete mention
syntax once spliced into a string: either it opens with a character other
than the brackets and continues with at least one character outside the
mention alphabet, or it is a single character outside the mention
alphabet. -/
def SafeRep (f : List Char) : Prop :=
  (∃ c d ft, f = c :: d :: ft ∧ c ≠ '<' ∧ c ≠ '>' ∧ Amem d = false ∧
    ∀ x ∈ ft, Amem x = false) ∨
  (∃ c, f = [c] ∧ Amem c = false)

/-- A directory name that keeps cleaning well-behaved: non-empty, free of
mention-alphabet characters, and free of the dollar sign that replace would
expand. -/
def safeStr (s : List Char) : Bool :=
  !s.isEmpty && s.all (fun c => !Amem c && !(c == '$'))

/-- Every channel name, role name, member username and member nickname of
the guild is a safe directory name. -/
def safeGuild (g : Guild) : Bool :=
  g.channels.all (fun c => safeStr c.name) &&
  g.roles.all (fun r => safeStr r.name) &&
  g.members.all (fun m =>
    safeStr m.username &&
    (match m.nick with
     | some n => safeStr n
     | none => true))

/-- Every global username is a safe directory name. -/
def safeUsers (us : List User) : Bool :=
  us.all (fun u => safeStr u.username)

/-- Number of opening brackets, the termination measure of the rewrite
loops. -/
def countLt (s : List Char) : Nat :=
  s.count '<'

/-- The spec wording of the discriminator test: length exceeds 5 and the
5th-from-end character is the hash sign. -/
def specTagCond (s : List Char) : Prop :=
  5 < s.length ∧ s[s.length - 5]? = some '#'

instance specTagCond_dec (s : List Char) : Decidable (specTagCond s) :=
  inferInstanceAs (Decidable (5 < s.length ∧ s[s.length - 5]? = some '#'))

/-- There is no occurrence of a Wf-shaped mention anywhere in s. -/
def NoOcc (Wf : List Char → List Char → Prop) (s : List Char) : Prop :=
  ∀ p m i suf, s = p ++ m ++ suf → ¬ Wf m i

/-! ## Basic list lemmas -/

theorem isPrefixOf_ex (p : List Char) :
    ∀ s : List Char, p.isPrefixOf s = true ↔ ∃ r, s = p ++ r := by
  induction p with
  | nil => intro s; simp
  | cons a as ih =>
    intro s
    cases s with
    | nil => simp
    | cons b bs =>
      rw [List.isPrefixOf_cons₂, Bool.and_eq_true, beq_iff_eq, ih bs]
      constructor
      · rintro ⟨rfl, r, rfl⟩
        exact ⟨r, rfl⟩
      · rintro ⟨r, hr⟩
        injection hr with h1 h2
        exact ⟨h1.symm, r, h2⟩

theorem splitFirst_some_eq {pat : List Char} :
    ∀ {s p q : List Char}, splitFirst pat s = some (p, q) → s = p ++ pat ++ q := by
  intro s
  induction s with
  | nil =>
    intro p q h
    simp only [splitFirst] at h
    by_cases hp : pat.isPrefixOf ([] : List Char) = true
    · rw [if_pos hp] at h
      obtain ⟨r, hr⟩ := (isPrefixOf_ex pat []).1 hp
      cases List.append_eq_nil.mp hr.symm with
      | intro h1 h2 =>
        cases h
        simp [h1]
    · rw [if_neg hp] at h; cases h
  | cons c t ih =>
    intro p q h
    simp only [splitFirst] at h
    by_cases hp : pat.isPrefixOf (c :: t) = true
    · rw [if_pos hp] at h
      obtain ⟨r, hr⟩ := (isPrefixOf_ex pat (c :: t)).1 hp
      cases h
      rw [hr]
      simp [List.drop_append_of_le_length, List.drop_length]
    · rw [if_neg hp] at h
      cases hsp : splitFirst pat t with
      | none => rw [hsp] at h; cases h
      | some x =>
        rw [hsp] at h
        obtain ⟨p', q'⟩ := x
        simp only [Option.map_some'] at h
        cases h
        have := ih hsp
        simp [this]

theorem splitFirst_none {pat : List Char} :
    ∀ {s : List Char}, splitFirst pat s = none →
      ∀ p q : List Char, s ≠ p ++ pat ++ q := by
  intro s
  induction s with
  | nil =>
    intro h p q hc
    simp only [splitFirst] at h
    by_cases hp : pat.isPrefixOf ([] : List Char) = true
    · rw [if_pos hp] at h; cases h
    · rw [if_neg hp] at h
      have : ([] : List Char) = p ++ pat ++ q := hc
      have h1 : pat = [] := by
        rcases List.append_eq_nil.mp this.symm with ⟨h2, _⟩
        exact (List.append_eq_nil.mp h2).2
      rw [h1] at hp
      simp at hp
  | cons c t ih =>
    intro h p q hc
    simp only [splitFirst] at h
    by_cases hp : pat.isPrefixOf (c :: t) = true
    · rw [if_pos hp] at h; cases h
    · rw [if_neg hp] at h
      cases hsp : splitFirst pat t with
      | some x => rw [hsp] at h; simp at h
      | none =>
        cases p with
        | nil =>
          apply hp
          refine (isPrefixOf_ex pat (c :: t)).2 ⟨q, ?_⟩
          simpa using hc
        | cons c' p' =>
          have hc' : c' = c ∧ t = p' ++ pat ++ q := by
            have := hc
            simp only [List.cons_append, List.append_assoc] at this ⊢
            exact ⟨(List.cons.injEq _ _ _ _ ▸ this).1.symm,
              by
                have h2 := (List.cons.injEq _ _ _ _ ▸ this).2
                simp [List.append_assoc] at h2 ⊢
                exact h2⟩
          exact ih hsp p' q hc'.2

theorem splitFirst_intro {pat : List Char} :
    ∀ {s p q : List Char}, s = p ++ pat ++ q →
      (∀ p2 q2 : List Char, s = p2 ++ pat ++ q2 → p.length ≤ p2.length) →
      splitFirst pat s = some (p, q) := by
  intro s
  induction s with
  | nil =>
    intro p q hs hmin
    have hp : p = [] := by
      rcases List.append_eq_nil.mp hs.symm with ⟨h1, _⟩
      exact (List.append_eq_nil.mp h1).1
    have hq : q = [] := by
      rcases List.append_eq_nil.mp hs.symm with ⟨_, h2⟩
      exact h2
    have hpat : pat = [] := by
      rcases List.append_eq_nil.mp hs.symm with ⟨h1, _⟩
      exact (List.append_eq_nil.mp h1).2
    subst hp; subst hq; subst hpat
    simp [splitFirst]
  | cons c t ih =>
    intro p q hs hmin
    simp only [splitFirst]
    cases p with
    | nil =>
      have hpre : pat.isPrefixOf (c :: t) = true := by
        refine (isPrefixOf_ex pat (c :: t)).2 ⟨q, ?_⟩
        simpa using hs
      rw [if_pos hpre]
      have : (c :: t).drop pat.length = q := by
        have : c :: t = pat ++ q := by simpa using hs
        rw [this, List.drop_append_of_le_length (le_refl _), List.drop_length]
        simp
      rw [this]
    | cons c' p' =>
      have hc : c' = c ∧ t = p' ++ pat ++ q := by
        have h0 := hs
        simp only [List.cons_append, List.append_assoc] at h0
        injection h0 with h1 h2
        constructor
        · exact h1.symm
        · simpa [List.append_assoc] using h2
      have hpre : pat.isPrefixOf (c :: t) = false := by
        by_contra hb
        have hb' : pat.isPrefixOf (c :: t) = true := by
          cases h : pat.isPrefixOf (c :: t) with
          | true => rfl
          | false => exact absurd h hb
        obtain ⟨r, hr⟩ := (isPrefixOf_ex pat (c :: t)).1 hb'
        have := hmin [] r (by simpa using hr)
        simp at this
      rw [hpre]
      simp only [Bool.false_eq_true, if_false]
      have hrec := ih hc.2 (by
        intro p2 q2 h2
        have := hmin (c :: p2) q2 (by simp [hc.1, h2])
        simpa using this)
      rw [hrec]
      simp [hc.1]

/-- takeWhile across an appended block that satisfies the predicate up to a
stopping element. -/
theorem takeWhile_append_stop {p : Char → Bool} :
    ∀ (d : List Char) (y : Char) (r : List Char), (∀ c ∈ d, p c = true) →
      p y = false →
      (d ++ y :: r).takeWhile p = d ∧ (d ++ y :: r).dropWhile p = y :: r := by
  intro d
  induction d with
  | nil =>
    intro y r _ hy
    simp [List.takeWhile, List.dropWhile, hy]
  | cons a d' ih =>
    intro y r hall hy
    have ha : p a = true := hall a (by simp)
    have := ih y r (fun c hc => hall c (by simp [hc])) hy
    simp [List.takeWhile, List.dropWhile, ha, this.1, this.2]

theorem tryMentionCore_sound {s m i r : List Char}
    (h : tryMentionCore s = some (m, i, r)) :
    s = m ++ r ∧ m = i ++ ['>'] ∧ WfId i := by
  unfold tryMentionCore at h
  by_cases hlen : 15 ≤ (s.takeWhile Char.isDigit).length ∧
      (s.takeWhile Char.isDigit).length ≤ 21
  · rw [if_pos hlen] at h
    cases hdw : s.dropWhile Char.isDigit with
    | nil => rw [hdw] at h; cases h
    | cons y r' =>
      rw [hdw] at h
      by_cases hy : y = '>'
      · subst hy
        simp only at h
        cases h
        refine ⟨?_, rfl, ?_⟩
        · conv_lhs => rw [← List.takeWhile_append_dropWhile (p := Char.isDigit) (l := s)]
          rw [hdw]
          simp
        · exact ⟨hlen.1, hlen.2, fun c hc => List.mem_takeWhile_imp hc⟩
      · cases y
        simp_all
  · rw [if_neg hlen] at h; cases h

theorem tryMentionCore_complete {i : List Char} (r : List Char) (h : WfId i) :
    tryMentionCore (i ++ '>' :: r) = some (i ++ ['>'], i, r) := by
  obtain ⟨h1, h2, h3⟩ := h
  have hgt : ('>').isDigit = false := by decide
  have := takeWhile_append_stop i '>' r h3 hgt
  unfold tryMentionCore
  rw [this.1, this.2, if_pos ⟨h1, h2⟩]
  rfl

theorem tryUser_cons (a b c : Char) (t : List Char) :
    tryUser (a :: b :: c :: t) =
      if a = '<' ∧ b = '@' then
        if c = '!' then
          (tryMentionCore t).map (fun x => ('<' :: '@' :: '!' :: x.1, x.2.1, x.2.2))
        else
          (tryMentionCore (c :: t)).map (fun x => ('<' :: '@' :: x.1, x.2.1, x.2.2))
      else none := rfl

theorem tryChan_cons (a b : Char) (t : List Char) :
    tryChan (a :: b :: t) =
      if a = '<' ∧ b = '#' then
        (tryMentionCore t).map (fun x => ('<' :: '#' :: x.1, x.2.1, x.2.2))
      else none := rfl

theorem tryRole_cons (a b c : Char) (t : List Char) :
    tryRole (a :: b :: c :: t) =
      if a = '<' ∧ b = '@' ∧ c = '&' then
        (tryMentionCore t).map (fun x => ('<' :: '@' :: '&' :: x.1, x.2.1, x.2.2))
      else none := rfl

/-- Soundness and completeness of a front matcher for its well-formedness
predicate, plus the shape facts of its matches. -/
structure TrySpec (tryf : List Char → Option (List Char × List Char × List Char))
    (Wf : List Char → List Char → Prop) : Prop where
  sound : ∀ s m i r, tryf s = some (m, i, r) → s = m ++ r ∧ Wf m i
  complete : ∀ m i r, Wf m i → tryf (m ++ r) = some (m, i, r)
  mprops : ∀ m i, Wf m i → MProps m

theorem amem_of_digit {c : Char} (h : c.isDigit = true) : Amem c = true := by
  simp [Amem, h]

theorem wfUser_mprops {m i : List Char} (h : WfUser m i) : MProps m := by
  obtain ⟨⟨_, _, hdig⟩, hm⟩ := h
  cases hm with
  | inl hm =>
    subst hm
    refine ⟨rfl, ?_, ?_⟩
    · show (('<' :: '@' :: i) ++ ['>']).getLast? = some '>'
      exact List.getLast?_concat _
    · intro c hc
      have hc2 : c = '<' ∨ c = '@' ∨ c ∈ i ∨ c = '>' := by simpa using hc
      rcases hc2 with rfl | rfl | hc2 | rfl
      · decide
      · decide
      · exact amem_of_digit (hdig c hc2)
      · decide
  | inr hm =>
    subst hm
    refine ⟨rfl, ?_, ?_⟩
    · show (('<' :: '@' :: '!' :: i) ++ ['>']).getLast? = some '>'
      exact List.getLast?_concat _
    · intro c hc
      have hc2 : c = '<' ∨ c = '@' ∨ c = '!' ∨ c ∈ i ∨ c = '>' := by simpa using hc
      rcases hc2 with rfl | rfl | rfl | hc2 | rfl
      · decide
      · decide
      · decide
      · exact amem_of_digit (hdig c hc2)
      · decide

theorem wfChan_mprops {m i : List Char} (h : WfChan m i) : MProps m := by
  obtain ⟨⟨_, _, hdig⟩, hm⟩ := h
  subst hm
  refine ⟨rfl, ?_, ?_⟩
  · show (('<' :: '#' :: i) ++ ['>']).getLast? = some '>'
    exact List.getLast?_concat _
  · intro c hc
    have hc2 : c = '<' ∨ c = '#' ∨ c ∈ i ∨ c = '>' := by simpa using hc
    rcases hc2 with rfl | rfl | hc2 | rfl
    · decide
    · decide
    · exact amem_of_digit (hdig c hc2)
    · decide

theorem wfRole_mprops {m i : List Char} (h : WfRole m i) : MProps m := by
  obtain ⟨⟨_, _, hdig⟩, hm⟩ := h
  subst hm
  refine ⟨rfl, ?_, ?_⟩
  · show (('<' :: '@' :: '&' :: i) ++ ['>']).getLast? = some '>'
    exact List.getLast?_concat _
  · intro c hc
    have hc2 : c = '<' ∨ c = '@' ∨ c = '&' ∨ c ∈ i ∨ c = '>' := by simpa using hc
    rcases hc2 with rfl | rfl | rfl | hc2 | rfl
    · decide
    · decide
    · decide
    · exact amem_of_digit (hdig c hc2)
    · decide

theorem wfId_nonempty {i : List Char} (h : WfId i) : ∃ c0 i2, i = c0 :: i2 := by
  obtain ⟨h1, _, _⟩ := h
  cases i with
  | nil => simp at h1
  | cons c0 i2 => exact ⟨c0, i2, rfl⟩

theorem tryUser_trySpec : TrySpec tryUser WfUser := by
  refine ⟨?_, ?_, fun m i h => wfUser_mprops h⟩
  · intro s m i r h
    cases s with
    | nil => simp [tryUser] at h
    | cons a s1 =>
      cases s1 with
      | nil => simp [tryUser] at h
      | cons b s2 =>
        cases s2 with
        | nil => simp [tryUser] at h
        | cons c t =>
          simp only [tryUser] at h
          by_cases hab : a = '<' ∧ b = '@'
          · rw [if_pos hab] at h
            obtain ⟨rfl, rfl⟩ := hab
            by_cases hc : c = '!'
            · subst hc
              rw [if_pos rfl, Option.map_eq_some'] at h
              obtain ⟨x, hx, heq⟩ := h
              obtain ⟨m0, i0, r0⟩ := x
              simp only at heq
              obtain ⟨rfl, rfl, rfl⟩ := Prod.mk.injEq .. ▸ heq
              obtain ⟨hs, hm0, hwf⟩ := tryMentionCore_sound hx
              exact ⟨by simp [hs], hwf, Or.inr (by rw [hm0])⟩
            · rw [if_neg hc, Option.map_eq_some'] at h
              obtain ⟨x, hx, heq⟩ := h
              obtain ⟨m0, i0, r0⟩ := x
              simp only at heq
              obtain ⟨rfl, rfl, rfl⟩ := Prod.mk.injEq .. ▸ heq
              obtain ⟨hs, hm0, hwf⟩ := tryMentionCore_sound hx
              exact ⟨by simp [← hs], hwf, Or.inl (by rw [hm0])⟩
          · rw [if_neg hab] at h
            simp at h
  · intro m i r hwf
    obtain ⟨hid, hm⟩ := hwf
    obtain ⟨c0, i2, hi⟩ := wfId_nonempty hid
    have hdig : c0.isDigit = true := hid.2.2 c0 (by simp [hi])
    have hc0 : ¬ c0 = '!' := by
      intro hc
      rw [hc] at hdig
      simp at hdig
    cases hm with
    | inl hm =>
      subst hm
      have harr : ('<' :: '@' :: (i ++ ['>'])) ++ r =
          '<' :: '@' :: c0 :: (i2 ++ '>' :: r) := by
        simp [hi]
      rw [harr, tryUser_cons, if_pos ⟨rfl, rfl⟩, if_neg hc0]
      have : c0 :: (i2 ++ '>' :: r) = i ++ '>' :: r := by simp [hi]
      rw [this, tryMentionCore_complete r hid]
      simp
    | inr hm =>
      subst hm
      have harr : ('<' :: '@' :: '!' :: (i ++ ['>'])) ++ r =
          '<' :: '@' :: '!' :: (i ++ '>' :: r) := by
        simp
      rw [harr, tryUser_cons, if_pos ⟨rfl, rfl⟩, if_pos rfl,
        tryMentionCore_complete r hid]
      simp

theorem tryChan_trySpec : TrySpec tryChan WfChan := by
  refine ⟨?_, ?_, fun m i h => wfChan_mprops h⟩
  · intro s m i r h
    cases s with
    | nil => simp [tryChan] at h
    | cons a s1 =>
      cases s1 with
      | nil => simp [tryChan] at h
      | cons b t =>
        simp only [tryChan] at h
        by_cases hab : a = '<' ∧ b = '#'
        · rw [if_pos hab, Option.map_eq_some'] at h
          obtain ⟨rfl, rfl⟩ := hab
          obtain ⟨x, hx, heq⟩ := h
          obtain ⟨m0, i0, r0⟩ := x
          simp only at heq
          obtain ⟨rfl, rfl, rfl⟩ := Prod.mk.injEq .. ▸ heq
          obtain ⟨hs, hm0, hwf⟩ := tryMentionCore_sound hx
          exact ⟨by simp [hs], hwf, by rw [hm0]⟩
        · rw [if_neg hab] at h
          simp at h
  · intro m i r hwf
    obtain ⟨hid, hm⟩ := hwf
    subst hm
    have harr : ('<' :: '#' :: (i ++ ['>'])) ++ r =
        '<' :: '#' :: (i ++ '>' :: r) := by
      simp
    rw [harr, tryChan_cons, if_pos ⟨rfl, rfl⟩, tryMentionCore_complete r hid]
    simp

theorem tryRole_trySpec : TrySpec tryRole WfRole := by
  refine ⟨?_, ?_, fun m i h => wfRole_mprops h⟩
  · intro s m i r h
    cases s with
    | nil => simp [tryRole] at h
    | cons a s1 =>
      cases s1 with
      | nil => simp [tryRole] at h
      | cons b s2 =>
        cases s2 with
        | nil => simp [tryRole] at h
        | cons c t =>
          simp only [tryRole] at h
          by_cases hab : a = '<' ∧ b = '@' ∧ c = '&'
          · rw [if_pos hab, Option.map_eq_some'] at h
            obtain ⟨rfl, rfl, rfl⟩ := hab
            obtain ⟨x, hx, heq⟩ := h
            obtain ⟨m0, i0, r0⟩ := x
            simp only at heq
            obtain ⟨rfl, rfl, rfl⟩ := Prod.mk.injEq .. ▸ heq
            obtain ⟨hs, hm0, hwf⟩ := tryMentionCore_sound hx
            exact ⟨by simp [hs], hwf, by rw [hm0]⟩
          · rw [if_neg hab] at h
            simp at h
  · intro m i r hwf
    obtain ⟨hid, hm⟩ := hwf
    subst hm
    have harr : ('<' :: '@' :: '&' :: (i ++ ['>'])) ++ r =
        '<' :: '@' :: '&' :: (i ++ '>' :: r) := by
      simp
    rw [harr, tryRole_cons, if_pos ⟨rfl, rfl, rfl⟩, tryMentionCore_complete r hid]
    simp

/-! ## scanFind: the unanchored exec -/

theorem tryf_nil_eq_none {tryf Wf} (hT : TrySpec tryf Wf) : tryf [] = none := by
  cases h : tryf [] with
  | none => rfl
  | some x =>
    obtain ⟨m, i, r⟩ := x
    obtain ⟨hs, hwf⟩ := hT.sound [] m i r h
    have hne := (hT.mprops m i hwf).1
    have hm : m = [] := (List.append_eq_nil.mp hs.symm).1
    rw [hm] at hne
    cases hne

theorem scanFind_none_iff {tryf Wf} (hT : TrySpec tryf Wf) :
    ∀ s : List Char, scanFind tryf s = none ↔ NoOcc Wf s := by
  intro s
  induction s with
  | nil =>
    simp only [scanFind, tryf_nil_eq_none hT]
    constructor
    · intro _ p m i suf hs hwf
      have hm : m = [] := by
        rcases List.append_eq_nil.mp hs.symm with ⟨h1, _⟩
        exact (List.append_eq_nil.mp h1).2
      have := (hT.mprops m i hwf).1
      rw [hm] at this
      cases this
    · intro _; trivial
  | cons c t ih =>
    simp only [scanFind]
    cases htry : tryf (c :: t) with
    | some x =>
      simp only []
      constructor
      · intro h; cases h
      · intro hno
        obtain ⟨m, i, r⟩ := x
        obtain ⟨hs, hwf⟩ := hT.sound _ m i r htry
        exact absurd hwf (hno [] m i r (by simpa using hs))
    | none =>
      simp only [Option.map_eq_none']
      rw [ih]
      constructor
      · intro hno p m i suf hs hwf
        cases p with
        | nil =>
          have : c :: t = m ++ suf := by simpa using hs
          rw [this, hT.complete m i suf hwf] at htry
          cases htry
        | cons c' p' =>
          have hct : c' = c ∧ t = p' ++ m ++ suf := by
            have h0 := hs
            simp only [List.cons_append, List.append_assoc] at h0
            injection h0 with h1 h2
            exact ⟨h1.symm, by simpa [List.append_assoc] using h2⟩
          exact hno p' m i suf hct.2 hwf
      · intro hno p m i suf hs hwf
        exact hno (c :: p) m i suf (by simp [hs]) hwf

theorem scanFind_some_spec {tryf Wf} (hT : TrySpec tryf Wf) :
    ∀ {s p m i suf : List Char}, scanFind tryf s = some (p, m, i, suf) →
      s = p ++ m ++ suf ∧ Wf m i ∧
      ∀ p2 m2 i2 suf2 : List Char, s = p2 ++ m2 ++ suf2 → Wf m2 i2 →
        p.length ≤ p2.length := by
  intro s
  induction s with
  | nil =>
    intro p m i suf h
    simp only [scanFind, tryf_nil_eq_none hT] at h
    cases h
  | cons c t ih =>
    intro p m i suf h
    simp only [scanFind] at h
    cases htry : tryf (c :: t) with
    | some x =>
      rw [htry] at h
      obtain ⟨m0, i0, r0⟩ := x
      simp only [Option.some.injEq, Prod.mk.injEq] at h
      obtain ⟨rfl, rfl, rfl, rfl⟩ := h
      obtain ⟨hs, hwf⟩ := hT.sound _ _ _ _ htry
      exact ⟨by simpa using hs, hwf, fun _ _ _ _ _ _ => Nat.zero_le _⟩
    | none =>
      rw [htry] at h
      simp only [Option.map_eq_some'] at h
      obtain ⟨x, hx, heq⟩ := h
      obtain ⟨p0, m0, i0, suf0⟩ := x
      simp only at heq
      obtain ⟨rfl, rfl, rfl, rfl⟩ := Prod.mk.injEq .. ▸ heq
      obtain ⟨hs, hwf, hmin⟩ := ih hx
      refine ⟨by simp [hs], hwf, ?_⟩
      intro p2 m2 i2 suf2 h2 hwf2
      cases p2 with
      | nil =>
        have : c :: t = m2 ++ suf2 := by simpa using h2
        rw [this, hT.complete m2 i2 suf2 hwf2] at htry
        cases htry
      | cons c' p2' =>
        have hct : c' = c ∧ t = p2' ++ m2 ++ suf2 := by
          have h0 := h2
          simp only [List.cons_append, List.append_assoc] at h0
          injection h0 with h1 h2'
          exact ⟨h1.symm, by simpa [List.append_assoc] using h2'⟩
        have := hmin p2' m2 i2 suf2 hct.2 hwf2
        simpa using Nat.succ_le_succ this

/-! ## Occurrence bookkeeping across a replacement -/

theorem append_split {t l r u v : List Char} (h : l ++ r = u ++ t ++ v) :
    (∃ u1 v1, l = u1 ++ t ++ v1) ∨ (∃ u2 v2, r = u2 ++ t ++ v2) ∨
    (∃ t1 t2 u1 v2, t = t1 ++ t2 ∧ t1 ≠ [] ∧ t2 ≠ [] ∧
      l = u1 ++ t1 ∧ r = t2 ++ v2) := by
  have h' : l ++ r = u ++ (t ++ v) := by simpa [List.append_assoc] using h
  rcases List.append_eq_append_iff.mp h' with ⟨w, hw1, hw2⟩ | ⟨w, hw1, hw2⟩
  · exact Or.inr (Or.inl ⟨w, v, by simpa [List.append_assoc] using hw2⟩)
  · rcases List.append_eq_append_iff.mp hw2 with ⟨w2, hx1, hx2⟩ | ⟨w2, hx1, hx2⟩
    · refine Or.inl ⟨u, w2, ?_⟩
      rw [hw1, hx1]
      simp [List.append_assoc]
    · cases w with
      | nil =>
        refine Or.inr (Or.inl ⟨[], v, ?_⟩)
        have ht : t = w2 := by simpa using hx1
        rw [hx2, ← ht]
        simp
      | cons b w' =>
        cases w2 with
        | nil =>
          refine Or.inl ⟨u, [], ?_⟩
          have ht : t = b :: w' := by simpa using hx1
          rw [hw1, ht]
          simp
        | cons a w2' =>
          exact Or.inr (Or.inr ⟨b :: w', a :: w2', u, v, hx1, by simp, by simp,
            hw1, hx2⟩)

theorem mprops_head {t : List Char} (hM : MProps t) : ∃ t2, t = '<' :: t2 := by
  cases t with
  | nil => cases hM.1
  | cons a t2 =>
    have := hM.1
    simp only [List.head?_cons, Option.some.injEq] at this
    exact ⟨t2, by rw [this]⟩

theorem safeRep_not_mem_lt {f : List Char} (h : SafeRep f) : '<' ∉ f := by
  rcases h with ⟨c, d, ft, rfl, hcl, _, hd, hft⟩ | ⟨c, rfl, hc⟩
  · intro hmem
    rcases List.mem_cons.mp hmem with rfl | hmem2
    · exact hcl rfl
    · rcases List.mem_cons.mp hmem2 with rfl | hmem3
      · rw [show Amem '<' = true from by decide] at hd; cases hd
      · have := hft '<' hmem3
        rw [show Amem '<' = true from by decide] at this; cases this
  · intro hmem
    rcases List.mem_cons.mp hmem with rfl | hmem2
    · rw [show Amem '<' = true from by decide] at hc; cases hc
    · cases hmem2

theorem safeRep_last {f : List Char} (h : SafeRep f) {a : Char}
    (ha : f.getLast? = some a) : Amem a = false := by
  rcases h with ⟨c, d, ft, rfl, _, _, hd, hft⟩ | ⟨c, rfl, hc⟩
  · rw [List.getLast?_cons_cons] at ha
    have hmem := List.mem_of_getLast?_eq_some ha
    rcases List.mem_cons.mp hmem with rfl | hmem2
    · exact hd
    · exact hft a hmem2
  · simp only [List.getLast?_singleton, Option.some.injEq] at ha
    rw [← ha]
    exact hc

/-- A well-formed mention cannot straddle a safe replacement: any occurrence
of it in pre ++ f ++ suf lies wholly inside pre or wholly inside suf. -/
theorem men_pres {t f p suf u v : List Char} (hM : MProps t) (hF : SafeRep f)
    (h : p ++ f ++ suf = u ++ t ++ v) :
    (∃ u1 v1, p = u1 ++ t ++ v1) ∨ (∃ u2 v2, suf = u2 ++ t ++ v2) := by
  have h1 : p ++ (f ++ suf) = u ++ t ++ v := by simpa [List.append_assoc] using h
  rcases append_split h1 with hA | hB | hC
  · exact Or.inl hA
  · obtain ⟨u2, v2, hB⟩ := hB
    rcases append_split hB with hD | hE | hG
    · obtain ⟨u1, v1, hD⟩ := hD
      obtain ⟨t2, rfl⟩ := mprops_head hM
      have : '<' ∈ f := by rw [hD]; simp
      exact absurd this (safeRep_not_mem_lt hF)
    · exact Or.inr hE
    · obtain ⟨t1, t2, u1, v2x, ht, ht1, ht2, hf, hsuf⟩ := hG
      rcases List.eq_nil_or_concat t1 with rfl | ⟨l2, a, rfl⟩
      · exact absurd rfl ht1
      · have hlast : f.getLast? = some a := by
          rw [hf, List.concat_eq_append, ← List.append_assoc]
          exact List.getLast?_concat _
        have hAmemF : Amem a = false := safeRep_last hF hlast
        have haT : a ∈ t := by rw [ht]; simp [List.concat_eq_append]
        have hAmemT := hM.2.2 a haT
        rw [hAmemT] at hAmemF
        cases hAmemF
  · obtain ⟨t1, t2, u1, v2, ht, ht1, ht2, hp, hfs⟩ := hC
    exfalso
    rcases hF with ⟨c, d, ft, rfl, hcl, hcg, hd, hft⟩ | ⟨c, rfl, hc⟩
    · cases t2 with
      | nil => exact ht2 rfl
      | cons x t2x =>
        have hx : x = c ∧ t2x ++ v2 = d :: (ft ++ suf) := by
          have h0 : (c :: d :: ft) ++ suf = (x :: t2x) ++ v2 := hfs
          simp only [List.cons_append, List.append_assoc] at h0
          injection h0 with ha hb
          exact ⟨ha.symm, hb.symm⟩
        cases t2x with
        | nil =>
          have hlast : t.getLast? = some x := by
            rw [ht, List.getLast?_concat]
          have hgt := hM.2.1
          rw [hlast] at hgt
          injection hgt with hv
          exact hcg (hx.1 ▸ hv)
        | cons y t2y =>
          have hy : y = d := by
            have h0 := hx.2
            simp only [List.cons_append, List.cons.injEq] at h0
            exact h0.1
          have hyT : y ∈ t := by rw [ht]; simp
          have := hM.2.2 y hyT
          rw [hy, hd] at this
          cases this
    · cases t2 with
      | nil => exact ht2 rfl
      | cons x t2x =>
        have hx : x = c := by
          have h0 : c :: suf = x :: (t2x ++ v2) := by simpa using hfs
          injection h0 with ha _
          exact ha.symm
        have hxT : x ∈ t := by rw [ht]; simp
        have := hM.2.2 x hxT
        rw [hx, hc] at this
        cases this

/-- Replacing one well-formed-mention span by a safe replacement preserves
the absence of any kind of mention occurrence. -/
theorem noOcc_pres {Wf : List Char → List Char → Prop}
    (hWfM : ∀ m i, Wf m i → MProps m) {f m0 p suf : List Char} (hF : SafeRep f)
    (hno : NoOcc Wf (p ++ m0 ++ suf)) : NoOcc Wf (p ++ f ++ suf) := by
  intro p2 m2 i2 suf2 hdec hwf
  rcases men_pres (hWfM m2 i2 hwf) hF hdec with ⟨u1, v1, hP⟩ | ⟨u2, v2, hS⟩
  · refine hno u1 m2 i2 (v1 ++ m0 ++ suf) ?_ hwf
    rw [hP]
    simp [List.append_assoc]
  · refine hno (p ++ m0 ++ u2) m2 i2 v2 ?_ hwf
    rw [hS]
    simp [List.append_assoc]

/-- The string rewrite of one loop iteration: the replace of match[0] hits
exactly the span exec found, because exec reports the leftmost match and the
matched text itself matches wherever it occurs. -/
theorem replace_step {tryf Wf} (hT : TrySpec tryf Wf) {s p m i suf : List Char}
    (rep : List Char) (h : scanFind tryf s = some (p, m, i, suf)) :
    replaceFirst m rep s = p ++ rep ++ suf := by
  obtain ⟨hs, hwf, hmin⟩ := scanFind_some_spec hT h
  have hsp : splitFirst m s = some (p, suf) := by
    apply splitFirst_intro hs
    intro p2 q2 h2
    exact hmin p2 m i q2 h2 hwf
  unfold replaceFirst
  rw [hsp]

theorem getSubstitution_no_dollar {matched pre suf : List Char} :
    ∀ {rep : List Char}, '$' ∉ rep →
      getSubstitution matched pre suf rep = rep := by
  intro rep
  induction rep with
  | nil => intro _; rfl
  | cons c r ih =>
    intro h
    cases r with
    | nil => rfl
    | cons d r2 =>
      have hc : ¬ c = '$' := by
        intro he
        exact h (by rw [he]; exact List.mem_cons_self _ _)
      have hr : '$' ∉ d :: r2 := fun hm => h (List.mem_cons_of_mem c hm)
      simp only [getSubstitution]
      rw [if_neg hc, ih hr]

theorem jsReplace_no_dollar {pat rep s : List Char} (h : '$' ∉ rep) :
    jsReplace pat rep s = replaceFirst pat rep s := by
  unfold jsReplace replaceFirst
  cases splitFirst pat s with
  | none => rfl
  | some x => simp [getSubstitution_no_dollar h]

/-- The string rewrite of one loop iteration through the faithful replace:
with dollar-free replacement text the substitution is literal and hits
exactly the span exec found. -/
theorem jsReplace_step {tryf Wf} (hT : TrySpec tryf Wf)
    {s p m i suf : List Char} (rep : List Char) (hnd : '$' ∉ rep)
    (h : scanFind tryf s = some (p, m, i, suf)) :
    jsReplace m rep s = p ++ rep ++ suf := by
  rw [jsReplace_no_dollar hnd]
  exact replace_step hT rep h

theorem countLt_append (a b : List Char) :
    countLt (a ++ b) = countLt a + countLt b := by
  simp [countLt]

theorem countLt_pos_of_mprops {m : List Char} (hM : MProps m) : 0 < countLt m := by
  obtain ⟨t2, rfl⟩ := mprops_head hM
  simp [countLt, List.count_cons]

theorem countLt_safeRep {f : List Char} (hF : SafeRep f) : countLt f = 0 :=
  List.count_eq_zero.mpr (safeRep_not_mem_lt hF)

/-- Termination and postcondition of one rewrite loop under safe replacement
text: with fuel beyond the opening-bracket count the loop stops, at a string
the matcher no longer matches anywhere, without increasing that count. -/
theorem mentionLoop_spec {tryf Wf} (hT : TrySpec tryf Wf)
    {fmt : List Char → List Char} (hfmt : ∀ i, SafeRep (fmt i))
    (hnd : ∀ i, '$' ∉ fmt i) :
    ∀ n s, countLt s ≤ n →
      ∃ r, (∀ fuel, countLt s < fuel → mentionLoop tryf fmt fuel s = some r) ∧
        scanFind tryf r = none ∧ countLt r ≤ countLt s := by
  intro n
  induction n with
  | zero =>
    intro s hs
    cases hsc : scanFind tryf s with
    | none =>
      refine ⟨s, ?_, hsc, le_refl _⟩
      intro fuel hf
      cases fuel with
      | zero => exact absurd hf (Nat.not_lt_zero _)
      | succ k => simp [mentionLoop, hsc]
    | some x =>
      obtain ⟨p, m, i, suf⟩ := x
      obtain ⟨hdec, hwf, _⟩ := scanFind_some_spec hT hsc
      have hpos : 0 < countLt s := by
        rw [hdec, countLt_append, countLt_append]
        have := countLt_pos_of_mprops (hT.mprops m i hwf)
        omega
      omega
  | succ n ih =>
    intro s hs
    cases hsc : scanFind tryf s with
    | none =>
      refine ⟨s, ?_, hsc, le_refl _⟩
      intro fuel hf
      cases fuel with
      | zero => exact absurd hf (Nat.not_lt_zero _)
      | succ k => simp [mentionLoop, hsc]
    | some x =>
      obtain ⟨p, m, i, suf⟩ := x
      obtain ⟨hdec, hwf, _⟩ := scanFind_some_spec hT hsc
      have hrepl : jsReplace m (fmt i) s = p ++ fmt i ++ suf :=
        jsReplace_step hT (fmt i) (hnd i) hsc
      have hlt : countLt (p ++ fmt i ++ suf) < countLt s := by
        rw [hdec, countLt_append, countLt_append, countLt_append, countLt_append,
          countLt_safeRep (hfmt i)]
        have := countLt_pos_of_mprops (hT.mprops m i hwf)
        omega
      obtain ⟨r, hr1, hr2, hr3⟩ := ih (p ++ fmt i ++ suf) (by omega)
      refine ⟨r, ?_, hr2, by omega⟩
      intro fuel hf
      cases fuel with
      | zero => exact absurd hf (Nat.not_lt_zero _)
      | succ k =>
        simp only [mentionLoop, hsc]
        rw [hrepl]
        exact hr1 k (by omega)

/-- A rewrite loop for one mention kind, with safe replacement text, never
introduces occurrences of another kind. -/
theorem mentionLoop_preserves {tryf Wf tryO WfO} (hT : TrySpec tryf Wf)
    (hO : TrySpec tryO WfO) {fmt : List Char → List Char}
    (hfmt : ∀ i, SafeRep (fmt i)) (hnd : ∀ i, '$' ∉ fmt i) :
    ∀ fuel s r, mentionLoop tryf fmt fuel s = some r →
      scanFind tryO s = none → scanFind tryO r = none := by
  intro fuel
  induction fuel with
  | zero =>
    intro s r h
    simp [mentionLoop] at h
  | succ k ih =>
    intro s r h hno
    simp only [mentionLoop] at h
    cases hsc : scanFind tryf s with
    | none =>
      rw [hsc] at h
      simp only [Option.some.injEq] at h
      rw [← h]
      exact hno
    | some x =>
      rw [hsc] at h
      obtain ⟨p, m, i, suf⟩ := x
      simp only at h
      obtain ⟨hdec, hwf, _⟩ := scanFind_some_spec hT hsc
      have hrepl := jsReplace_step hT (fmt i) (hnd i) hsc
      rw [hrepl] at h
      apply ih _ _ h
      rw [scanFind_none_iff hO] at hno ⊢
      rw [hdec] at hno
      exact noOcc_pres (fun m2 i2 hw => hO.mprops m2 i2 hw) (hfmt i) hno

/-! ## Safe directories give safe replacement text -/

theorem safeStr_spec {n : List Char} (hn : safeStr n = true) :
    n ≠ [] ∧ ∀ c ∈ n, Amem c = false ∧ c ≠ '$' := by
  unfold safeStr at hn
  rw [Bool.and_eq_true] at hn
  constructor
  · intro he
    rw [he] at hn
    simp at hn
  · intro c hc
    have := List.all_eq_true.mp hn.2 c hc
    rw [Bool.and_eq_true] at this
    constructor
    · simpa using this.1
    · simpa using this.2

theorem safeStr_saferep {sym : Char} (hs1 : sym ≠ '<') (hs2 : sym ≠ '>')
    {n : List Char} (hn : safeStr n = true) : SafeRep (sym :: n) := by
  obtain ⟨hne, hall⟩ := safeStr_spec hn
  cases n with
  | nil => exact absurd rfl hne
  | cons d ft =>
    exact Or.inl ⟨sym, d, ft, rfl, hs1, hs2, (hall d (by simp)).1,
      fun x hx => (hall x (by simp [hx])).1⟩

theorem deletedUser_saferep : SafeRep ("@deleted-user".data) := by
  refine Or.inl ⟨'@', 'd', "eleted-user".data, by decide, by decide, by decide,
    by decide, ?_⟩
  decide

theorem deletedChannel_saferep : SafeRep ("#deleted-channel".data) := by
  refine Or.inl ⟨'#', 'd', "eleted-channel".data, by decide, by decide, by decide,
    by decide, ?_⟩
  decide

theorem deletedRole_saferep : SafeRep ("@deleted-role".data) := by
  refine Or.inl ⟨'@', 'd', "eleted-role".data, by decide, by decide, by decide,
    by decide, ?_⟩
  decide

theorem safeGuild_parts {g : Guild} (h : safeGuild g = true) :
    (∀ c ∈ g.channels, safeStr c.name = true) ∧
    (∀ r ∈ g.roles, safeStr r.name = true) ∧
    (∀ m ∈ g.members, safeStr m.username = true ∧
      ∀ n, m.nick = some n → safeStr n = true) := by
  unfold safeGuild at h
  rw [Bool.and_eq_true, Bool.and_eq_true] at h
  obtain ⟨⟨hc, hr⟩, hm⟩ := h
  refine ⟨fun c hcm => List.all_eq_true.mp hc c hcm,
    fun r hrm => List.all_eq_true.mp hr r hrm, ?_⟩
  intro m hmm
  have := List.all_eq_true.mp hm m hmm
  rw [Bool.and_eq_true] at this
  refine ⟨this.1, ?_⟩
  intro n hn
  have h2 := this.2
  rw [hn] at h2
  exact h2

theorem userFmt_saferep {og : Option Guild} {users : List User}
    (hg : ∀ g, og = some g → safeGuild g = true)
    (hu : safeUsers users = true) (i : List Char) :
    SafeRep (userFmt og users i) := by
  cases og with
  | some g =>
    have hgg := safeGuild_parts (hg g rfl)
    unfold userFmt
    cases hfind : g.members.find? (fun m => m.id = i) with
    | none =>
      simp only [hfind]
      exact deletedUser_saferep
    | some m =>
      simp only [hfind]
      have hmem := List.mem_of_find?_eq_some hfind
      obtain ⟨hun, hnick⟩ := hgg.2.2 m hmem
      cases hn : m.nick with
      | none =>
        simp only [hn]
        exact safeStr_saferep (by decide) (by decide) hun
      | some n =>
        have hsn := hnick n hn
        have hne := (safeStr_spec hsn).1
        simp only [hn, if_neg hne]
        exact safeStr_saferep (by decide) (by decide) hsn
  | none =>
    unfold userFmt
    cases hfind : users.find? (fun u => u.id = i) with
    | none =>
      simp only [hfind]
      exact deletedUser_saferep
    | some u =>
      simp only [hfind]
      have hmem := List.mem_of_find?_eq_some hfind
      have := List.all_eq_true.mp hu u hmem
      exact safeStr_saferep (by decide) (by decide) this

theorem chanFmt_saferep {g : Guild} (hg : safeGuild g = true) (i : List Char) :
    SafeRep (chanFmt g i) := by
  unfold chanFmt
  cases hfind : g.channels.find? (fun ch => ch.id = i) with
  | none =>
    simp only [hfind]
    exact deletedChannel_saferep
  | some ch =>
    simp only [hfind]
    have hmem := List.mem_of_find?_eq_some hfind
    exact safeStr_saferep (by decide) (by decide)
      ((safeGuild_parts hg).1 ch hmem)

theorem roleFmt_saferep {g : Guild} (hg : safeGuild g = true) (i : List Char) :
    SafeRep (roleFmt g i) := by
  unfold roleFmt
  cases hfind : g.roles.find? (fun r => r.id = i) with
  | none =>
    simp only [hfind]
    exact deletedRole_saferep
  | some r =>
    simp only [hfind]
    have hmem := List.mem_of_find?_eq_some hfind
    exact safeStr_saferep (by decide) (by decide)
      ((safeGuild_parts hg).2.1 r hmem)

theorem userFmt_no_dollar {og : Option Guild} {users : List User}
    (hg : ∀ g, og = some g → safeGuild g = true)
    (hu : safeUsers users = true) (i : List Char) :
    '$' ∉ userFmt og users i := by
  cases og with
  | some g =>
    have hgg := safeGuild_parts (hg g rfl)
    unfold userFmt
    cases hfind : g.members.find? (fun m => m.id = i) with
    | none =>
      simp only [hfind]
      decide
    | some m =>
      simp only [hfind]
      have hmem := List.mem_of_find?_eq_some hfind
      obtain ⟨hun, hnick⟩ := hgg.2.2 m hmem
      cases hn : m.nick with
      | none =>
        simp only [hn]
        intro hin
        rcases List.mem_cons.mp hin with he | hin2
        · exact absurd he (by decide)
        · exact ((safeStr_spec hun).2 '$' hin2).2 rfl
      | some n =>
        have hsn := hnick n hn
        have hne := (safeStr_spec hsn).1
        simp only [hn, if_neg hne]
        intro hin
        rcases List.mem_cons.mp hin with he | hin2
        · exact absurd he (by decide)
        · exact ((safeStr_spec hsn).2 '$' hin2).2 rfl
  | none =>
    unfold userFmt
    cases hfind : users.find? (fun u => u.id = i) with
    | none =>
      simp only [hfind]
      decide
    | some u =>
      simp only [hfind]
      have hsu := List.all_eq_true.mp hu u (List.mem_of_find?_eq_some hfind)
      intro hin
      rcases List.mem_cons.mp hin with he | hin2
      · exact absurd he (by decide)
      · exact ((safeStr_spec hsu).2 '$' hin2).2 rfl

theorem chanFmt_no_dollar {g : Guild} (hg : safeGuild g = true) (i : List Char) :
    '$' ∉ chanFmt g i := by
  unfold chanFmt
  cases hfind : g.channels.find? (fun ch => ch.id = i) with
  | none =>
    simp only [hfind]
    decide
  | some ch =>
    simp only [hfind]
    have hsc := (safeGuild_parts hg).1 ch (List.mem_of_find?_eq_some hfind)
    intro hin
    rcases List.mem_cons.mp hin with he | hin2
    · exact absurd he (by decide)
    · exact ((safeStr_spec hsc).2 '$' hin2).2 rfl

theorem roleFmt_no_dollar {g : Guild} (hg : safeGuild g = true) (i : List Char) :
    '$' ∉ roleFmt g i := by
  unfold roleFmt
  cases hfind : g.roles.find? (fun r => r.id = i) with
  | none =>
    simp only [hfind]
    decide
  | some r =>
    simp only [hfind]
    have hsr := (safeGuild_parts hg).2.1 r (List.mem_of_find?_eq_some hfind)
    intro hin
    rcases List.mem_cons.mp hin with he | hin2
    · exact absurd he (by decide)
    · exact ((safeStr_spec hsr).2 '$' hin2).2 rfl

/-! ## Mention absence through replaceFirst and broadcastClean -/

theorem replaceFirst_noOcc {Wf : List Char → List Char → Prop}
    (hWfM : ∀ m i, Wf m i → MProps m)
    {pat rep s : List Char} (hrep : SafeRep rep) (h : NoOcc Wf s) :
    NoOcc Wf (replaceFirst pat rep s) := by
  unfold replaceFirst
  cases hsp : splitFirst pat s with
  | none => exact h
  | some x =>
    obtain ⟨p, q⟩ := x
    have hs := splitFirst_some_eq hsp
    simp only
    rw [hs] at h
    exact noOcc_pres hWfM hrep h

theorem everyoneRep_saferep : SafeRep ('@' :: zws :: "everyone".data) := by
  refine Or.inl ⟨'@', zws, "everyone".data, rfl, by decide, by decide, by decide, ?_⟩
  decide

theorem hereRep_saferep : SafeRep ('@' :: zws :: "here".data) := by
  refine Or.inl ⟨'@', zws, "here".data, rfl, by decide, by decide, by decide, ?_⟩
  decide

theorem broadcastClean_noOcc {Wf : List Char → List Char → Prop}
    (hWfM : ∀ m i, Wf m i → MProps m) {s : List Char} (h : NoOcc Wf s) :
    NoOcc Wf (broadcastClean s) := by
  unfold broadcastClean
  rw [jsReplace_no_dollar (show '$' ∉ ('@' :: zws :: "here".data) by decide),
    jsReplace_no_dollar (show '$' ∉ ('@' :: zws :: "everyone".data) by decide)]
  exact replaceFirst_noOcc hWfM hereRep_saferep
    (replaceFirst_noOcc hWfM everyoneRep_saferep h)

/-! ## The full cleanContent pipeline under safe directories -/

theorem cleanCore_spec {g : Guild} {users : List User}
    (hg : safeGuild g = true) (hu : safeUsers users = true) (s : List Char) :
    ∃ r, (∀ fuel, countLt s < fuel → cleanCore (some g) users fuel s = .ok r) ∧
      NoOcc WfUser r ∧ NoOcc WfChan r ∧ NoOcc WfRole r := by
  have hfmtU : ∀ i, SafeRep (userFmt (some g) users i) :=
    userFmt_saferep
      (fun g2 hg2 => by
        injection hg2 with h2
        rw [← h2]
        exact hg)
      hu
  have hfmtC : ∀ i, SafeRep (chanFmt g i) := chanFmt_saferep hg
  have hfmtR : ∀ i, SafeRep (roleFmt g i) := roleFmt_saferep hg
  have hndU : ∀ i, '$' ∉ userFmt (some g) users i :=
    userFmt_no_dollar
      (fun g2 hg2 => by
        injection hg2 with h2
        rw [← h2]
        exact hg)
      hu
  have hndC : ∀ i, '$' ∉ chanFmt g i := chanFmt_no_dollar hg
  have hndR : ∀ i, '$' ∉ roleFmt g i := roleFmt_no_dollar hg
  obtain ⟨r1, h1a, h1b, h1c⟩ :=
    mentionLoop_spec tryUser_trySpec hfmtU hndU (countLt s) s (le_refl _)
  obtain ⟨r2, h2a, h2b, h2c⟩ :=
    mentionLoop_spec tryChan_trySpec hfmtC hndC (countLt r1) r1 (le_refl _)
  obtain ⟨r3, h3a, h3b, h3c⟩ :=
    mentionLoop_spec tryRole_trySpec hfmtR hndR (countLt r2) r2 (le_refl _)
  have e2x := h2a (countLt r1 + 1) (by omega)
  have e3x := h3a (countLt r2 + 1) (by omega)
  have noU2 : scanFind tryUser r2 = none :=
    mentionLoop_preserves tryChan_trySpec tryUser_trySpec hfmtC hndC _ _ _ e2x h1b
  have noU3 : scanFind tryUser r3 = none :=
    mentionLoop_preserves tryRole_trySpec tryUser_trySpec hfmtR hndR _ _ _ e3x noU2
  have noC3 : scanFind tryChan r3 = none :=
    mentionLoop_preserves tryRole_trySpec tryChan_trySpec hfmtR hndR _ _ _ e3x h2b
  refine ⟨broadcastClean r3, ?_, ?_, ?_, ?_⟩
  · intro fuel hf
    have e1 := h1a fuel hf
    have e2 := h2a fuel (by omega)
    have e3 := h3a fuel (by omega)
    simp only [cleanCore, chanLoop, roleLoop, e1, e2, e3]
  · exact broadcastClean_noOcc (fun m i hw => wfUser_mprops hw)
      ((scanFind_none_iff tryUser_trySpec r3).mp noU3)
  · exact broadcastClean_noOcc (fun m i hw => wfChan_mprops hw)
      ((scanFind_none_iff tryChan_trySpec r3).mp noC3)
  · exact broadcastClean_noOcc (fun m i hw => wfRole_mprops hw)
      ((scanFind_none_iff tryRole_trySpec r3).mp h3b)

/-! ## jsSlice and jsSpliceRm helpers -/

theorem jsBound_nonneg (len : Nat) (i : Int) (h0 : 0 ≤ i) :
    jsBound len i = min i.toNat len := by
  unfold jsBound
  have h2 : ¬ i < 0 := by omega
  rw [if_neg h2]
  omega

theorem jsBound_neg (len : Nat) (i : Int) (h : i < 0) :
    jsBound len i = (max ((len : Int) + i) 0).toNat := by
  unfold jsBound
  rw [if_pos h]

theorem jsSpliceRm_big {α : Type} (l : List α) (i : Int)
    (h : (l.length : Int) ≤ i) : jsSpliceRm l i = l := by
  unfold jsSpliceRm
  rw [jsBound_nonneg _ _ (by omega)]
  have h1 : min i.toNat l.length = l.length := by omega
  rw [h1]
  simp

theorem jsSpliceRm_inbounds {α : Type} (l : List α) (i : Int) (h0 : 0 ≤ i)
    (h1 : i < (l.length : Int)) : jsSpliceRm l i = l.eraseIdx i.toNat := by
  unfold jsSpliceRm
  rw [jsBound_nonneg _ _ h0]
  have h3 : min i.toNat l.length = i.toNat := by omega
  rw [h3, List.eraseIdx_eq_take_drop_succ]

theorem jsSpliceRm_neg {α : Type} (l : List α) (i : Int) (h : i < 0) :
    jsSpliceRm l i = l.eraseIdx (max ((l.length : Int) + i) 0).toNat := by
  unfold jsSpliceRm
  rw [jsBound_neg _ _ h, List.eraseIdx_eq_take_drop_succ]

theorem jsSlice_neg5_neg4 {s : List Char} (h : 5 < s.length) :
    jsSlice s (-5) (-4) = [s.get ⟨s.length - 5, by omega⟩] := by
  unfold jsSlice
  rw [jsBound_neg _ _ (by decide), jsBound_neg _ _ (by decide)]
  have hL : (5 : Int) < (s.length : Int) := by exact_mod_cast h
  have ha2 : (max ((s.length : Int) + -5) 0).toNat = s.length - 5 := by omega
  have hb2 : (max ((s.length : Int) + -4) 0).toNat = s.length - 4 := by omega
  rw [ha2, hb2]
  have hc : s.length - 4 = (s.length - 5) + 1 := by omega
  rw [hc, ← List.take_drop]
  rw [List.drop_eq_getElem_cons (by omega : s.length - 5 < s.length)]
  rfl

theorem mem_jsSlice {α : Type} {x : α} {l : List α} {a b : Int}
    (h : x ∈ jsSlice l a b) : x ∈ l := by
  unfold jsSlice at h
  exact List.mem_of_mem_take (List.mem_of_mem_drop h)

/-! ## idExec characterization -/

theorem takeWhile_all {p : Char → Bool} :
    ∀ s : List Char, (∀ c ∈ s, p c = true) → s.takeWhile p = s := by
  intro s
  induction s with
  | nil => intro _; rfl
  | cons c t ih =>
    intro hall
    rw [List.takeWhile_cons, if_pos (hall c (by simp))]
    rw [ih (fun x hx => hall x (by simp [hx]))]

theorem idExec_isSome_iff (s : List Char) :
    (idExec s).isSome = true ↔
      15 ≤ s.length ∧ s.length ≤ 21 ∧ ∀ c ∈ s, c.isDigit = true := by
  unfold idExec
  by_cases h : (s.takeWhile Char.isDigit).length = s.length ∧
      15 ≤ (s.takeWhile Char.isDigit).length ∧
      (s.takeWhile Char.isDigit).length ≤ 21
  · rw [if_pos h]
    simp only [Option.isSome_some, true_iff]
    have heq : s.takeWhile Char.isDigit = s :=
      (List.takeWhile_prefix _).eq_of_length h.1
    rw [heq] at h
    exact ⟨h.2.1, h.2.2, fun c hc => by
      have := List.mem_takeWhile_imp (heq.symm ▸ hc)
      exact this⟩
  · rw [if_neg h]
    simp only [Option.isSome_none, Bool.false_eq_true, false_iff]
    intro ⟨h1, h2, h3⟩
    exact h (by rw [takeWhile_all s h3]; exact ⟨rfl, h1, h2⟩)

theorem idExec_some_eq {s i : List Char} (h : idExec s = some i) : i = s := by
  unfold idExec at h
  by_cases hc : (s.takeWhile Char.isDigit).length = s.length ∧
      15 ≤ (s.takeWhile Char.isDigit).length ∧
      (s.takeWhile Char.isDigit).length ≤ 21
  · rw [if_pos hc] at h
    injection h with h2
    rw [← h2]
    exact (List.takeWhile_prefix _).eq_of_length hc.1
  · rw [if_neg hc] at h
    cases h

theorem idExec_none_of_mem_lt {s : List Char} (h : '<' ∈ s) :
    idExec s = none := by
  cases hi : idExec s with
  | none => rfl
  | some i =>
    have hsome : (idExec s).isSome = true := by rw [hi]; rfl
    have := ((idExec_isSome_iff s).mp hsome).2.2 '<' h
    cases this

/-! ## Claim theorems -/

/-- Claim C7: for every token list, nextToken(true) consumes all remaining
tokens, leaves the shared list empty, and returns exactly the consumed
tokens joined by single spaces. -/
theorem c7_nextToken_rest (st : Cursor) :
    nextArgument st true = (some (List.intercalate [' '] st.args), []) := rfl

/-- Claim C5: resolveRole consumes token(s) first and only then checks guild
presence and emptiness together: the args list shrinks exactly as the shared
consumption step dictates even without a guild, and the result is absent
whenever the guild is missing or the consumed string is empty. -/
theorem c5_resolveRole_consumes_first (st : Cursor) (b : Bool) :
    (resolveRole st b).2 = (consume b st.args).2 ∧
    (st.guild = none → (resolveRole st b).1 = none) ∧
    (truthy (consume b st.args).1 = none → (resolveRole st b).1 = none) := by
  refine ⟨?_, ?_, ?_⟩
  · cases hg : st.guild with
    | none =>
      cases ht : truthy (consume b st.args).1 with
      | none => simp [resolveRole, hg, ht]
      | some s => simp [resolveRole, hg, ht]
    | some g =>
      cases ht : truthy (consume b st.args).1 with
      | none => simp [resolveRole, hg, ht]
      | some s =>
        cases hi : idOrMentionId tryRole s with
        | none => simp [resolveRole, hg, ht, hi]
        | some i => simp [resolveRole, hg, ht, hi]
  · intro hg
    cases ht : truthy (consume b st.args).1 with
    | none => simp [resolveRole, hg, ht]
    | some s => simp [resolveRole, hg, ht]
  · intro ht
    cases hg : st.guild with
    | none => simp [resolveRole, hg, ht]
    | some g => simp [resolveRole, hg, ht]

/-- Witness for C5 at a concrete guildless state: the token is consumed and
the result is absent. -/
theorem c5_resolveRole_witness :
    (resolveRole ⟨none, [], [], ["x".data]⟩ false).2 = [] ∧
    (resolveRole ⟨none, [], [], ["x".data]⟩ false).1 = none := by
  have h := c5_resolveRole_consumes_first ⟨none, [], [], ["x".data]⟩ false
  refine ⟨?_, h.2.1 rfl⟩
  rw [h.1]
  rfl

/-- Claim C4 as stated is false: the index -1 does not name an existing
position of ["a", "b"], yet drop(-1) removes the last element (JS splice
interprets negative starts from the end). -/
theorem c4_drop_counterexample :
    (¬ (0 ≤ (-1 : Int) ∧
      (-1 : Int) < ((["a".data, "b".data] : List (List Char)).length : Int))) ∧
    (drop ⟨none, [], [], ["a".data, "b".data]⟩ (-1)).args = ["a".data] := by
  exact ⟨by decide, by decide⟩

/-- Claim C4, amended: an index at or past the length removes nothing; an
in-bounds index removes exactly the one token at that index; a negative
index counts from the end of the list (clamped at zero) as JS splice does,
and removes one element whenever the list is non-empty. -/
theorem c4_drop_amended (st : Cursor) (i : Int) :
    ((st.args.length : Int) ≤ i → drop st i = st) ∧
    (0 ≤ i → i < (st.args.length : Int) →
      (drop st i).args = st.args.eraseIdx i.toNat ∧
      (drop st i).args.length = st.args.length - 1) ∧
    (i < 0 → st.args ≠ [] →
      (drop st i).args =
        st.args.eraseIdx (max ((st.args.length : Int) + i) 0).toNat ∧
      (drop st i).args.length = st.args.length - 1) := by
  refine ⟨?_, ?_, ?_⟩
  · intro h
    have hs := jsSpliceRm_big st.args i h
    cases st
    simp only [drop]
    simp_all
  · intro h0 h1
    have hs := jsSpliceRm_inbounds st.args i h0 h1
    constructor
    · simp [drop, hs]
    · simp only [drop]
      rw [hs, List.length_eraseIdx]
      have h2 : i.toNat < st.args.length := by omega
      rw [if_pos h2]
  · intro h hne
    have hlen : 0 < st.args.length := List.length_pos.mpr hne
    have hidx : (max ((st.args.length : Int) + i) 0).toNat < st.args.length := by
      rcases le_or_lt 0 ((st.args.length : Int) + i) with hx | hx
      · rw [max_eq_left hx]
        omega
      · rw [max_eq_right (le_of_lt hx)]
        simpa using hlen
    have hs := jsSpliceRm_neg st.args i h
    constructor
    · simp [drop, hs]
    · simp only [drop]
      rw [hs, List.length_eraseIdx, if_pos hidx]

/-- Witness for C4 at concrete inputs: an index past the end is a no-op and
an in-bounds index removes exactly that token. -/
theorem c4_drop_witness :
    drop ⟨none, [], [], ["a".data, "b".data]⟩ 5 =
      ⟨none, [], [], ["a".data, "b".data]⟩ ∧
    (drop ⟨none, [], [], ["a".data, "b".data]⟩ 0).args = ["b".data] := by
  constructor
  · exact (c4_drop_amended ⟨none, [], [], ["a".data, "b".data]⟩ 5).1 (by decide)
  · have h := ((c4_drop_amended ⟨none, [], [], ["a".data, "b".data]⟩ 0).2.1
      (by decide) (by decide)).1
    rw [h]
    decide

/-- Claim C2: the claim matches the doc comment of getArgument, but the code
slices the half-open range [index, 1) rather than one element at index: at
the failing input args = ["a", "b"], index = 1, the call returns the empty
string while the token at position 1 is "b". -/
theorem c2_getArgument_eval :
    getArgument ⟨none, [], [], ["a".data, "b".data]⟩ 1 = [] ∧
    (["a".data, "b".data] : List (List Char))[1]? = some "b".data ∧
    "b".data ≠ ([] : List Char) := by
  exact ⟨by decide, by decide, by decide⟩

theorem scanFind_none_of_no_lt {tryf Wf} (hT : TrySpec tryf Wf)
    {s : List Char} (h : '<' ∉ s) : scanFind tryf s = none := by
  rw [scanFind_none_iff hT]
  intro p m i suf hs hwf
  obtain ⟨t2, hm⟩ := mprops_head (hT.mprops m i hwf)
  apply h
  rw [hs, hm]
  simp

/-- Claim C9: the anchored id pattern accepts exactly the strings of 15 to 21
ASCII digits; an all-digit string whose length falls outside that range is
resolved by name lookup, not id lookup. -/
theorem c9_id_pattern :
    (∀ s : List Char, (idExec s).isSome = true ↔
      (15 ≤ s.length ∧ s.length ≤ 21 ∧ ∀ c ∈ s, c.isDigit = true)) ∧
    (∀ (users : List User) (og : Option Guild) (chans : List Channel)
      (s : List Char), (∀ c ∈ s, c.isDigit = true) → s ≠ [] →
      (s.length < 15 ∨ 21 < s.length) →
      resolveUser ⟨og, users, chans, [s]⟩ false =
        (users.find? (fun u => u.username = s), [])) := by
  refine ⟨idExec_isSome_iff, ?_⟩
  intro users og chans s hdig hne hlen
  have hlt : '<' ∉ s := fun hmem => by simpa using hdig '<' hmem
  have hid : idExec s = none := by
    cases hi : idExec s with
    | none => rfl
    | some i =>
      have hsome : (idExec s).isSome = true := by rw [hi]; rfl
      obtain ⟨h1, h2, _⟩ := (idExec_isSome_iff s).mp hsome
      omega
  have hmen : scanFind tryUser s = none := scanFind_none_of_no_lt tryUser_trySpec hlt
  have hcond : ¬ (5 < s.length ∧ jsSlice s (-5) (-4) = ['#']) := by
    rintro ⟨h5, hsl⟩
    have hmem : '#' ∈ jsSlice s (-5) (-4) := by rw [hsl]; simp
    have h2 := mem_jsSlice hmem
    simpa using hdig '#' h2
  simp [resolveUser, consume, truthy, hne, idOrMentionId, hid, hmen, hcond]

/-- Witness for C9: a 14-digit token does not id-match and is found by exact
username lookup instead. -/
theorem c9_id_pattern_witness :
    resolveUser ⟨none,
      [⟨"999999999999999999".data, "12345678901234".data, "0001".data⟩],
      [], ["12345678901234".data]⟩ false =
      (some ⟨"999999999999999999".data, "12345678901234".data, "0001".data⟩,
        []) := by
  have h := c9_id_pattern.2
    [⟨"999999999999999999".data, "12345678901234".data, "0001".data⟩]
    none [] "12345678901234".data (by decide) (by decide) (by decide)
  rw [h]
  decide

/-- Claim C8: when the consumed string is neither a bare id nor a user
mention, the username#discriminator lookup is used exactly when the length
exceeds 5 and the 5th-from-end character is the hash sign; otherwise lookup
is by exact username. -/
theorem c8_discrim_condition (users : List User) (og : Option Guild)
    (chans : List Channel) (s : List Char) (hne : s ≠ [])
    (hid : idExec s = none) (hmen : scanFind tryUser s = none) :
    resolveUser ⟨og, users, chans, [s]⟩ false =
      ((if specTagCond s then
          users.find? (fun u => u.username ++ '#' :: u.discriminator = s)
        else users.find? (fun u => u.username = s)), []) := by
  have hcond : (5 < s.length ∧ jsSlice s (-5) (-4) = ['#']) ↔ specTagCond s := by
    unfold specTagCond
    constructor
    · rintro ⟨h5, hsl⟩
      refine ⟨h5, ?_⟩
      rw [jsSlice_neg5_neg4 h5] at hsl
      injection hsl with h1 _
      rw [List.getElem?_eq_getElem (by omega)]
      exact congrArg some h1
    · rintro ⟨h5, hg⟩
      refine ⟨h5, ?_⟩
      rw [jsSlice_neg5_neg4 h5]
      rw [List.getElem?_eq_getElem (by omega)] at hg
      injection hg with h1
      exact congrArg (fun c => [c]) h1
  by_cases hc : specTagCond s
  · have hcode : 5 < s.length ∧ jsSlice s (-5) (-4) = ['#'] := hcond.mpr hc
    simp [resolveUser, consume, truthy, hne, idOrMentionId, hid, hmen, hcode, hc]
  · have hcode : ¬ (5 < s.length ∧ jsSlice s (-5) (-4) = ['#']) :=
      fun h2 => hc (hcond.mp h2)
    simp [resolveUser, consume, truthy, hne, idOrMentionId, hid, hmen, hcode, hc]

/-- Witness for C8: "Jane#0001" takes the username#discriminator branch and
finds the matching user. -/
theorem c8_discrim_condition_witness :
    resolveUser ⟨none,
      [⟨"123456789012345678".data, "Jane".data, "0001".data⟩],
      [], ["Jane#0001".data]⟩ false =
      (some ⟨"123456789012345678".data, "Jane".data, "0001".data⟩, []) := by
  have h := c8_discrim_condition
    [⟨"123456789012345678".data, "Jane".data, "0001".data⟩]
    none [] "Jane#0001".data (by decide) (by decide) (by decide)
  rw [h]
  decide

/-! ## Claim C1: throw behaviour -/

theorem chanLoop_some_ne_thrown (g : Guild) (fuel : Nat) (s : List Char) :
    chanLoop (some g) fuel s ≠ JsOut.thrown := by
  unfold chanLoop
  cases h : mentionLoop tryChan (chanFmt g) fuel s with
  | none => simp [h]
  | some r => simp [h]

theorem roleLoop_some_ne_thrown (g : Guild) (fuel : Nat) (s : List Char) :
    roleLoop (some g) fuel s ≠ JsOut.thrown := by
  unfold roleLoop
  cases h : mentionLoop tryRole (roleFmt g) fuel s with
  | none => simp [h]
  | some r => simp [h]

/-- Claim C1, amended: only cleanContent can throw, and only without a
guild: whenever the invoking message has a guild, the thrown outcome is
impossible for cleanContent at every loop bound.  Every operation other
than cleanContent is embedded as a total function because every other
guild access in the source is guarded; the single unguarded access is the
guild read inside the channel/role rewrite loops of cleanContent, which
faults exactly when the message has no guild and a channel or role mention
is present (see the counterexample).  Completion is deliberately not part
of the amended claim: even with a guild the rewrite loops need not
terminate (cleanContent_diverges_self_nick above), so freedom from
throwing is all that survives of the original claim. -/
theorem c1_no_throw_amended (st : Cursor) (fuel : Nat) (b : Bool) (g : Guild)
    (hg : st.guild = some g) :
    (cleanContent fuel st b).1 ≠ JsOut.thrown := by
  unfold cleanContent
  cases ht : truthy (consume b st.args).1 with
  | none => simp [ht]
  | some s =>
    cases hcc : cleanCore st.guild st.botUsers fuel s with
    | ok r => simp [ht, hcc]
    | fuelOut => simp [ht, hcc]
    | thrown =>
      exfalso
      rw [hg] at hcc
      unfold cleanCore at hcc
      cases h1 : mentionLoop tryUser (userFmt (some g) st.botUsers) fuel s with
      | none => simp [h1] at hcc
      | some s1 =>
        simp only [h1] at hcc
        cases h2 : chanLoop (some g) fuel s1 with
        | ok s2 =>
          simp only [h2] at hcc
          cases h3 : roleLoop (some g) fuel s2 with
          | ok s3 => simp [h3] at hcc
          | thrown => exact roleLoop_some_ne_thrown g fuel s2 h3
          | fuelOut => simp [h3] at hcc
        | thrown => exact chanLoop_some_ne_thrown g fuel s1 h2
        | fuelOut => simp [h2] at hcc

/-- Witness for C1 at a concrete guild-bound state. -/
theorem c1_no_throw_witness :
    (cleanContent 5
        ⟨some ⟨[], [], []⟩, [], [], ["<#123456789012345678>".data]⟩
        false).1 ≠ JsOut.thrown :=
  c1_no_throw_amended _ 5 false ⟨[], [], []⟩ rfl

/-- Claim C1 as stated is false: cleanText on a channel mention with no
guild present reads channels off a missing guild and throws. -/
theorem c1_throw_counterexample :
    cleanContent 5 ⟨none, [], [], ["<#123456789012345678>".data]⟩ false =
      (JsOut.thrown, []) := by decide

theorem tryUser_head_ne_lt {a : Char} (ha : a ≠ '<') (t : List Char) :
    tryUser (a :: t) = none := by
  cases t with
  | nil => rfl
  | cons b t2 =>
    cases t2 with
    | nil => rfl
    | cons c t3 =>
      rw [tryUser_cons, if_neg (fun hab => ha hab.1)]

theorem scanFind_cons_some {tryf : List Char → Option (List Char × List Char × List Char)}
    {c : Char} {t m i r : List Char} (h : tryf (c :: t) = some (m, i, r)) :
    scanFind tryf (c :: t) = some ([], m, i, r) := by
  simp [scanFind, h]

theorem scanFind_cons_none {tryf : List Char → Option (List Char × List Char × List Char)}
    {c : Char} {t : List Char} (h : tryf (c :: t) = none) :
    scanFind tryf (c :: t) =
      (scanFind tryf t).map (fun r => (c :: r.1, r.2.1, r.2.2.1, r.2.2.2)) := by
  simp [scanFind, h]

theorem replicate_append_cons (n : Nat) (a : Char) (l : List Char) :
    List.replicate n a ++ a :: l = List.replicate (n + 1) a ++ l := by
  induction n with
  | zero => rfl
  | succ k ih =>
    simp only [List.replicate_succ, List.cons_append]
    rw [ih]
    simp [List.replicate_succ]

theorem scanFind_replicate_at (n : Nat) :
    scanFind tryUser
      (List.replicate n '@' ++ "<@123456789012345678>".data) =
      some (List.replicate n '@', "<@123456789012345678>".data,
        "123456789012345678".data, []) := by
  induction n with
  | zero =>
    simp only [List.replicate_zero, List.nil_append]
    decide
  | succ n ih =>
    rw [List.replicate_succ, List.cons_append,
      scanFind_cons_none (tryUser_head_ne_lt (by decide) _), ih]
    simp [List.replicate_succ]

/-- The user-mention rewrite loop never finishes, at any fuel, when a
member nickname is the mention text of that member: the replacement
reintroduces the mention it removed, one stray at sign to the left each
time. -/
theorem mentionLoop_diverges_self_nick :
    ∀ fuel n, mentionLoop tryUser
      (userFmt (some ⟨[], [],
        [⟨"123456789012345678".data, some "<@123456789012345678>".data,
          "jane".data⟩]⟩) [])
      fuel (List.replicate n '@' ++ "<@123456789012345678>".data) = none := by
  intro fuel
  induction fuel with
  | zero => intro n; rfl
  | succ k ih =>
    intro n
    have hsc := scanFind_replicate_at n
    simp only [mentionLoop, hsc]
    have hnd : '$' ∉ userFmt (some ⟨[], [],
        [⟨"123456789012345678".data, some "<@123456789012345678>".data,
          "jane".data⟩]⟩) [] "123456789012345678".data := by decide
    have hstep := jsReplace_step tryUser_trySpec _ hnd hsc
    rw [hstep]
    have hf : userFmt (some ⟨[], [],
        [⟨"123456789012345678".data, some "<@123456789012345678>".data,
          "jane".data⟩]⟩) [] "123456789012345678".data =
        '@' :: "<@123456789012345678>".data := by decide
    rw [hf, List.append_nil, replicate_append_cons]
    exact ih (n + 1)

/-- cleanContent on a guild-bound message can fail to complete: with the
self-mention nickname above, every fuel bound is exhausted, so the source
loop runs forever (it throws nothing and returns nothing). -/
theorem cleanContent_diverges_self_nick (fuel : Nat) :
    cleanContent fuel
      ⟨some ⟨[], [],
        [⟨"123456789012345678".data, some "<@123456789012345678>".data,
          "jane".data⟩]⟩, [], [], ["<@123456789012345678>".data]⟩ false =
      (JsOut.fuelOut, []) := by
  have hloop := mentionLoop_diverges_self_nick fuel 0
  rw [List.replicate_zero, List.nil_append] at hloop
  have ht : truthy
      (consume false (["<@123456789012345678>".data] : List (List Char))).1 =
      some "<@123456789012345678>".data := by decide
  unfold cleanContent
  simp only [ht]
  unfold cleanCore
  simp only [hloop]
  rfl

/-! ## Claim C10: unanchored mention recognition -/

theorem scanFind_isSome_of_occ {tryf Wf} (hT : TrySpec tryf Wf)
    {s p m i suf : List Char} (hs : s = p ++ m ++ suf) (hwf : Wf m i) :
    ∃ x, scanFind tryf s = some x := by
  cases hx : scanFind tryf s with
  | some x => exact ⟨x, rfl⟩
  | none => exact absurd hwf ((scanFind_none_iff hT s).mp hx p m i suf hs)

/-- Claim C10: mention recognition is unanchored: a consumed string that
contains a well-formed mention of the resolver kind anywhere as a substring
makes the resolver perform an id lookup with the captured digits of the
first embedded mention rather than a name lookup; bare numeric ids, in
contrast, only match as the entire string. -/
theorem c10_unanchored_mentions (g : Guild) (users : List User)
    (chans : List Channel) (s pre m i suf : List Char)
    (hs : s = pre ++ m ++ suf) :
    (WfUser m i → ∃ p2 m2 i2 suf2,
      scanFind tryUser s = some (p2, m2, i2, suf2) ∧ WfUser m2 i2 ∧
      resolveUser ⟨some g, users, chans, [s]⟩ false =
        (users.find? (fun u => u.id = i2), [])) ∧
    (WfChan m i → ∃ p2 m2 i2 suf2,
      scanFind tryChan s = some (p2, m2, i2, suf2) ∧ WfChan m2 i2 ∧
      resolveChannel ⟨some g, users, chans, [s]⟩ false =
        (chans.find? (fun ch => ch.id = i2), [])) ∧
    (WfRole m i → ∃ p2 m2 i2 suf2,
      scanFind tryRole s = some (p2, m2, i2, suf2) ∧ WfRole m2 i2 ∧
      resolveRole ⟨some g, users, chans, [s]⟩ false =
        (g.roles.find? (fun r => r.id = i2), [])) ∧
    (∀ j : List Char, idExec s = some j → j = s) := by
  refine ⟨?_, ?_, ?_, fun j hj => idExec_some_eq hj⟩
  · intro hwf
    have hlt : '<' ∈ s := by
      obtain ⟨t2, hm⟩ := mprops_head (wfUser_mprops hwf)
      rw [hs, hm]
      simp
    have hne : s ≠ [] := List.ne_nil_of_mem hlt
    have hid := idExec_none_of_mem_lt hlt
    obtain ⟨x, hx⟩ := scanFind_isSome_of_occ tryUser_trySpec hs hwf
    obtain ⟨p2, m2, i2, suf2⟩ := x
    obtain ⟨_, hwf2, _⟩ := scanFind_some_spec tryUser_trySpec hx
    refine ⟨p2, m2, i2, suf2, hx, hwf2, ?_⟩
    simp [resolveUser, consume, truthy, hne, idOrMentionId, hid, hx]
  · intro hwf
    have hlt : '<' ∈ s := by
      obtain ⟨t2, hm⟩ := mprops_head (wfChan_mprops hwf)
      rw [hs, hm]
      simp
    have hne : s ≠ [] := List.ne_nil_of_mem hlt
    have hid := idExec_none_of_mem_lt hlt
    obtain ⟨x, hx⟩ := scanFind_isSome_of_occ tryChan_trySpec hs hwf
    obtain ⟨p2, m2, i2, suf2⟩ := x
    obtain ⟨_, hwf2, _⟩ := scanFind_some_spec tryChan_trySpec hx
    refine ⟨p2, m2, i2, suf2, hx, hwf2, ?_⟩
    simp [resolveChannel, consume, truthy, hne, idOrMentionId, hid, hx]
  · intro hwf
    have hlt : '<' ∈ s := by
      obtain ⟨t2, hm⟩ := mprops_head (wfRole_mprops hwf)
      rw [hs, hm]
      simp
    have hne : s ≠ [] := List.ne_nil_of_mem hlt
    have hid := idExec_none_of_mem_lt hlt
    obtain ⟨x, hx⟩ := scanFind_isSome_of_occ tryRole_trySpec hs hwf
    obtain ⟨p2, m2, i2, suf2⟩ := x
    obtain ⟨_, hwf2, _⟩ := scanFind_some_spec tryRole_trySpec hx
    refine ⟨p2, m2, i2, suf2, hx, hwf2, ?_⟩
    simp [resolveRole, consume, truthy, hne, idOrMentionId, hid, hx]

/-- Witness for C10: a user mention embedded between letters still triggers
id lookup. -/
theorem c10_unanchored_mentions_witness :
    ∃ p2 m2 i2 suf2,
      scanFind tryUser "abc<@123456789012345678>def".data =
        some (p2, m2, i2, suf2) ∧ WfUser m2 i2 ∧
      resolveUser ⟨some ⟨[], [], []⟩,
          [⟨"123456789012345678".data, "Jane".data, "0001".data⟩], [],
          ["abc<@123456789012345678>def".data]⟩ false =
        ([⟨"123456789012345678".data, "Jane".data, "0001".data⟩].find?
          (fun u => u.id = i2), []) :=
  (c10_unanchored_mentions ⟨[], [], []⟩
    [⟨"123456789012345678".data, "Jane".data, "0001".data⟩] []
    "abc<@123456789012345678>def".data "abc".data
    "<@123456789012345678>".data "123456789012345678".data "def".data
    (by decide)).1 (by decide)

/-! ## Claim C6: the everyone/here substitution -/

theorem splitFirst_min {pat : List Char} :
    ∀ {s p q : List Char}, splitFirst pat s = some (p, q) →
      ∀ p2 q2 : List Char, s = p2 ++ pat ++ q2 → p.length ≤ p2.length := by
  intro s
  induction s with
  | nil =>
    intro p q h p2 q2 h2
    simp only [splitFirst] at h
    by_cases hp : pat.isPrefixOf ([] : List Char) = true
    · rw [if_pos hp] at h
      cases h
      simp
    · rw [if_neg hp] at h
      cases h
  | cons c t ih =>
    intro p q h p2 q2 h2
    simp only [splitFirst] at h
    by_cases hp : pat.isPrefixOf (c :: t) = true
    · rw [if_pos hp] at h
      cases h
      simp
    · rw [if_neg hp] at h
      cases hsp : splitFirst pat t with
      | none => rw [hsp] at h; cases h
      | some x =>
        rw [hsp] at h
        obtain ⟨pp, qq⟩ := x
        simp only [Option.map_some'] at h
        cases h
        cases p2 with
        | nil =>
          exfalso
          apply hp
          exact (isPrefixOf_ex pat (c :: t)).2 ⟨q2, by simpa using h2⟩
        | cons c2 p2x =>
          have hct : t = p2x ++ pat ++ q2 := by
            have h0 := h2
            simp only [List.cons_append, List.append_assoc] at h0
            injection h0 with _ hb
            simpa [List.append_assoc] using hb
          have := ih hsp p2x q2 hct
          simpa using Nat.succ_le_succ this

/-- Claim C6: the final cleanContent step is two sequential first-occurrence
replacements, the first inserting one zero-width space right after the at
sign of the first literal "@everyone", the second likewise for "@here"; a
first-occurrence replacement rewrites exactly the earliest occurrence and
leaves a string with no occurrence untouched; and the spec example holds:
tokens ["@everyone", "ping"] with cleanText(true) give the zero-width-space
cleaned text. -/
theorem c6_broadcast_insert :
    (∀ s : List Char, broadcastClean s =
      replaceFirst "@here".data ('@' :: zws :: "here".data)
        (replaceFirst "@everyone".data ('@' :: zws :: "everyone".data) s)) ∧
    (∀ pat s p q : List Char, splitFirst pat s = some (p, q) →
      s = p ++ pat ++ q ∧
      ∀ p2 q2 : List Char, s = p2 ++ pat ++ q2 → p.length ≤ p2.length) ∧
    (∀ pat rep s p q : List Char, splitFirst pat s = some (p, q) →
      replaceFirst pat rep s = p ++ rep ++ q) ∧
    (∀ pat rep s : List Char, splitFirst pat s = none →
      replaceFirst pat rep s = s ∧ ∀ p2 q2 : List Char, s ≠ p2 ++ pat ++ q2) ∧
    cleanContent 3 ⟨none, [], [], ["@everyone".data, "ping".data]⟩ true =
      (JsOut.ok (some "@\u200Beveryone ping".data), []) := by
  refine ⟨?_, ?_, ?_, ?_, by decide⟩
  · intro s
    unfold broadcastClean
    rw [jsReplace_no_dollar (show '$' ∉ ('@' :: zws :: "here".data) by decide),
      jsReplace_no_dollar (show '$' ∉ ('@' :: zws :: "everyone".data) by decide)]
  · intro pat s p q h
    exact ⟨splitFirst_some_eq h, splitFirst_min h⟩
  · intro pat rep s p q h
    unfold replaceFirst
    rw [h]
  · intro pat rep s h
    constructor
    · unfold replaceFirst
      rw [h]
    · exact splitFirst_none h

/-- Witness for C6: the first occurrence of "@everyone" in
"@everyone ping" starts the string, and the replacement inserts exactly one
zero-width space after the at sign. -/
theorem c6_broadcast_insert_witness :
    splitFirst "@everyone".data "@everyone ping".data = some ([], " ping".data) ∧
    replaceFirst "@everyone".data ('@' :: zws :: "everyone".data)
      "@everyone ping".data = "@\u200Beveryone ping".data := by
  refine ⟨by decide, ?_⟩
  have h := c6_broadcast_insert.2.2.1 "@everyone".data
    ('@' :: zws :: "everyone".data) "@everyone ping".data [] " ping".data
    (by decide)
  rw [h]
  decide

/-! ## Claim C3: exhaustive mention removal -/

/-- Claim C3 as stated is false: with a role whose name itself contains
user-mention syntax, cleanText terminates but its result still contains a
user mention. -/
theorem c3_clean_counterexample :
    cleanContent 4
        ⟨some ⟨[], [⟨"222222222222222222".data, "<@123456789012345678>".data⟩],
          []⟩, [], [], ["<@&222222222222222222>".data]⟩ false =
      (JsOut.ok (some "@<@123456789012345678>".data), []) ∧
    (scanFind tryUser "@<@123456789012345678>".data).isSome = true := by
  exact ⟨by decide, by decide⟩

/-- Claim C3, amended: for every consumed string, if the invoking message
has a guild and every directory name (channel names, role names, member
usernames and nicknames, global usernames) is non-empty and free of the
mention-alphabet characters < > @ # ! & and digits, and also free of the
dollar sign (whose ECMA-262 substitution patterns String.replace expands
even for a string search pattern), then the rewriting terminates (any fuel
beyond the opening-bracket count yields the same result) and the result
contains no user, channel, or role mention occurrence; replacement text
built from such names is spliced in literally and never matches mention
syntax.  Without these restrictions the claim fails: a name containing
mention syntax survives into the output (see the counterexample), and a
name containing a dollar-quote pattern can make a loop re-insert the text
after the match and diverge. -/
theorem c3_clean_exhaustive_amended (g : Guild) (users : List User)
    (chans : List Channel) (args : List (List Char)) (b : Bool) (s : List Char)
    (hg : safeGuild g = true) (hu : safeUsers users = true)
    (hs : truthy (consume b args).1 = some s) :
    ∃ r, (∀ fuel, countLt s < fuel →
        cleanContent fuel ⟨some g, users, chans, args⟩ b =
          (JsOut.ok (some r), (consume b args).2)) ∧
      NoOcc WfUser r ∧ NoOcc WfChan r ∧ NoOcc WfRole r := by
  obtain ⟨r, hr1, hr2, hr3, hr4⟩ := cleanCore_spec hg hu s
  refine ⟨r, ?_, hr2, hr3, hr4⟩
  intro fuel hf
  unfold cleanContent
  simp only [hs, hr1 fuel hf]

/-- Witness for C3 at a concrete guild with letter-only names: the user
mention is rewritten away and nothing mention-shaped remains. -/
theorem c3_clean_exhaustive_witness :
    ∃ r, (∀ fuel, countLt "<@123456789012345678>".data < fuel →
        cleanContent fuel
          ⟨some ⟨[⟨"111111111111111111".data, "general".data⟩],
              [⟨"222222222222222222".data, "mods".data⟩],
              [⟨"123456789012345678".data, some "Jane".data, "jane".data⟩]⟩,
            [], [], ["<@123456789012345678>".data]⟩ false =
          (JsOut.ok (some r),
            (consume false ["<@123456789012345678>".data]).2)) ∧
      NoOcc WfUser r ∧ NoOcc WfChan r ∧ NoOcc WfRole r :=
  c3_clean_exhaustive_amended
    ⟨[⟨"111111111111111111".data, "general".data⟩],
      [⟨"222222222222222222".data, "mods".data⟩],
      [⟨"123456789012345678".data, some "Jane".data, "jane".data⟩]⟩
    [] [] ["<@123456789012345678>".data] false "<@123456789012345678>".data
    (by decide) (by decide) (by decide)

end ErisArg
